import Mathlib

/-!
# osqtool `pkg/query/pack.go`: loading, repairing and rendering osquery packs

A shallow embedding of `RenderPack`, `LoadPack` and `SaveToDirectory`, together with
the library routines whose behaviour those functions rely on
(`bytes.ReplaceAll`, `regexp.ReplaceAll` for the one pattern used, the string part of
`encoding/json`, `filepath.Join`).

Go strings and byte slices are modelled as lists of characters.  Every pattern the
program searches for is ASCII, and an ASCII byte never occurs inside a multi-byte
UTF-8 sequence, so on UTF-8 text a byte-level replacement and the character-level
replacement below agree.
-/

set_option autoImplicit false

namespace Osqtool

/-- A Go `string` or `[]byte`. -/
abbrev Text := List Char

/-! ## `bytes.ReplaceAll` / `strings.ReplaceAll` -/

/-- The scanning loop of `ReplaceAll` for a non-empty `old`: at each position, when
`old` starts there, emit `new` and continue after the occurrence, otherwise copy one
character.  The first argument bounds the number of steps; `s.length` always suffices. -/
def replaceLoop (old new : Text) : Nat → Text → Text
  | 0, s => s
  | _ + 1, [] => []
  | n + 1, c :: t =>
    if old.isPrefixOf (c :: t) then new ++ replaceLoop old new n ((c :: t).drop old.length)
    else c :: replaceLoop old new n t

/-- For an empty `old`, Go inserts `new` before every character and at the end. -/
def insertAround (new : Text) : Text → Text
  | [] => new
  | c :: t => new ++ c :: insertAround new t

/-- `bytes.ReplaceAll(s, old, new)` and `strings.ReplaceAll(s, old, new)`: all
non-overlapping occurrences of `old`, found left to right, are replaced by `new`. -/
def ReplaceAll (s old new : Text) : Text :=
  if old = [] then insertAround new s else replaceLoop old new s.length s

/-! ## The `nakedInterval` regular expression -/

/-- The class `\s` of Go regular expressions: `[\t\n\f\r ]`. -/
def isSpace (c : Char) : Bool :=
  c = '\t' || c = '\n' || c = '\x0c' || c = '\r' || c = ' '

/-- The class `\d` of Go regular expressions: `[0-9]`. -/
def isDigit (c : Char) : Bool :=
  decide ('0' ≤ c) && decide (c ≤ '9')

/-- When `p` starts `s`, the rest of `s` after it. -/
def stripPrefix : Text → Text → Option Text
  | [], s => some s
  | _ :: _, [] => none
  | a :: p, b :: s => if a = b then stripPrefix p s else none

/-- The literal part `"interval"` of the pattern, quotes included. -/
def intervalKey : Text := "\"interval\"".toList

/-- A match of `"interval"\s*:\s*(\d+),` anchored at the start of `s`: the captured digit
run and the text after the match.  The character following each repetition is outside
the repeated class, so the greedy reading is the only way the pattern can match. -/
def matchNakedInterval (s : Text) : Option (Text × Text) :=
  match stripPrefix intervalKey s with
  | none => none
  | some s1 =>
    match s1.dropWhile isSpace with
    | [] => none
    | c :: s3 =>
      if c = ':' then
        let s4 := s3.dropWhile isSpace
        let d := s4.takeWhile isDigit
        match s4.dropWhile isDigit with
        | [] => none
        | e :: rest => if e = ',' ∧ d ≠ [] then some (d, rest) else none
      else none

/-- The replacement template `"interval": "$1",` expanded with the captured digits. -/
def intervalTemplate (d : Text) : Text :=
  "\"interval\": \"".toList ++ d ++ "\",".toList

/-- The loop of `nakedInterval.ReplaceAll`: the leftmost match is replaced by the
expanded template and the scan goes on after it; where no match starts, one character
is copied.  The first argument bounds the number of steps. -/
def nakedIntervalLoop : Nat → Text → Text
  | 0, s => s
  | n + 1, s =>
    match matchNakedInterval s with
    | some (d, rest) => intervalTemplate d ++ nakedIntervalLoop n rest
    | none =>
      match s with
      | [] => []
      | c :: t => c :: nakedIntervalLoop n t

/-- `nakedInterval.ReplaceAll(bs, []byte("\"interval\": \"$1\","))`. -/
def nakedIntervalReplaceAll (bs : Text) : Text :=
  nakedIntervalLoop bs.length bs

/-! ## Data model -/

/-- Modelled from the spec: the `Metadata` type is declared outside `pack.go`; the
specification gives it a raw query text, a platform and an interval that is a string in
memory. -/
structure Metadata where
  Query : Text
  Platform : Text
  Interval : Text
deriving DecidableEq, Repr

/-- A Go `map[string]*Metadata`: an association list from query name to a pointer that
may be nil (`none`).  The order of the list stands for the iteration order of the map. -/
abbrev QueryMap := List (Text × Option Metadata)

/-- The `Pack` struct. -/
structure Pack where
  Queries : QueryMap := []
  Discovery : QueryMap := []
  Shard : Int := 0
  Platform : Text := []
  Version : Text := []
  Oncall : Text := []
deriving DecidableEq, Repr

/-- What a call produces: a value, a returned error, or a run-time panic. -/
inductive Outcome (α : Type) where
  | ok : α → Outcome α
  | error : Text → Outcome α
  | panic : Outcome α
deriving DecidableEq, Repr

/-! ## `RenderPack` -/

/-- The three replacements `RenderPack` applies to the encoder's output. -/
def massage (out : Text) : Text :=
  let out := ReplaceAll out "\\u003e".toList ">".toList
  let out := ReplaceAll out "\\u003c".toList "<".toList
  ReplaceAll out "\\n".toList " \\\n    ".toList

/-- `RenderPack`, with `json.MarshalIndent(pack, "", "  ")` as the parameter
`marshalIndent`. -/
def RenderPack (marshalIndent : Pack → Except Text Text) (qs : QueryMap) : Except Text Text :=
  match marshalIndent { Queries := qs } with
  | .error err => .error err
  | .ok out => .ok (massage out)

/-! ## `LoadPack` -/

/-- The first text repair: every backslash-newline becomes backslash, backslash, `n`. -/
def newlineRepair (bs : Text) : Text :=
  ReplaceAll bs "\\\n".toList "\\\\n".toList

/-- Both text repairs, in the order `LoadPack` applies them. -/
def textRepair (bs : Text) : Text :=
  nakedIntervalReplaceAll (newlineRepair bs)

/-- The body of the final loop for one non-nil entry. -/
def repairEntry (packPlatform : Text) (v : Metadata) : Metadata :=
  let v := if packPlatform ≠ [] ∧ v.Platform = [] then { v with Platform := packPlatform } else v
  { v with Query := ReplaceAll v.Query "\\n".toList "\n".toList }

/-- The loop `for _, v := range pack.Queries`: each entry is updated in place; a nil
entry makes `v.Query` a nil dereference, which aborts the call (`none`). -/
def finalRepairs (packPlatform : Text) : QueryMap → Option QueryMap
  | [] => some []
  | (_, none) :: _ => none
  | (name, some v) :: rest =>
    match finalRepairs packPlatform rest with
    | none => none
    | some rest' => some ((name, some (repairEntry packPlatform v)) :: rest')

/-- `LoadPack`, with `os.ReadFile` and `json.Unmarshal` into a fresh `Pack` as the
parameters `readFile` and `unmarshal`.  The call to `klog.Infof` only logs. -/
def LoadPack (readFile : Text → Except Text Text) (unmarshal : Text → Except Text Pack)
    (path : Text) : Outcome Pack :=
  match readFile path with
  | .error err => .error ("read: ".toList ++ err)
  | .ok bs =>
    match unmarshal (textRepair bs) with
    | .error err => .error ("unmarshal: ".toList ++ err)
    | .ok pack =>
      match finalRepairs pack.Platform pack.Queries with
      | none => .panic
      | some qs => .ok { pack with Queries := qs }

/-! ## String literals of `encoding/json` -/

/-- The table `hex` of `encoding/json`. -/
def hexDigit (n : Nat) : Char :=
  "0123456789abcdef".toList.getD n '0'

/-- How `json.Marshal` (HTML escaping on, as `MarshalIndent` has it) writes one
character of a string: quote and backslash get a backslash, the named control
characters their letter, other control characters and `<`, `>`, `&` a `\u00XX` escape,
U+2028 and U+2029 a `\u202X` escape, and everything else is copied.  (Releases of Go
before 1.22 write backspace and form feed as `\u0008` and `\u000c`; nothing below depends
on the difference.) -/
def encodeChar (c : Char) : Text :=
  if c = '"' then "\\\"".toList
  else if c = '\\' then "\\\\".toList
  else if c = '\x08' then "\\b".toList
  else if c = '\x0c' then "\\f".toList
  else if c = '\n' then "\\n".toList
  else if c = '\r' then "\\r".toList
  else if c = '\t' then "\\t".toList
  else if c.toNat < 0x20 ∨ c = '<' ∨ c = '>' ∨ c = '&' then
    "\\u00".toList ++ [hexDigit (c.toNat / 16), hexDigit (c.toNat % 16)]
  else if c = '\u2028' ∨ c = '\u2029' then
    "\\u202".toList ++ [hexDigit (c.toNat % 16)]
  else [c]

/-- The characters `json.Marshal` writes between the quotes of a string. -/
def encodeBody (s : Text) : Text :=
  s.flatMap encodeChar

/-- The string literal `json.Marshal` writes for `s`. -/
def encodeString (s : Text) : Text :=
  '"' :: encodeBody s ++ ['"']

/-- The value of a hexadecimal digit. -/
def hexVal (c : Char) : Option Nat :=
  if '0' ≤ c ∧ c ≤ '9' then some (c.toNat - 48)
  else if 'a' ≤ c ∧ c ≤ 'f' then some (c.toNat - 87)
  else if 'A' ≤ c ∧ c ≤ 'F' then some (c.toNat - 55)
  else none

/-- `getu4`: the code unit of a leading `\uXXXX`, if the text starts with one. -/
def getu4 : Text → Option Nat
  | b :: u :: h1 :: h2 :: h3 :: h4 :: _ =>
    if b = '\\' ∧ u = 'u' then
      match hexVal h1, hexVal h2, hexVal h3, hexVal h4 with
      | some x1, some x2, some x3, some x4 => some (((x1 * 16 + x2) * 16 + x3) * 16 + x4)
      | _, _, _, _ => none
    else none
  | _ => none

/-- `utf16.DecodeRune`: the code point of a surrogate pair, if it is one. -/
def decodeSurrogates (r1 r2 : Nat) : Option Char :=
  if 0xD800 ≤ r1 ∧ r1 < 0xDC00 ∧ 0xDC00 ≤ r2 ∧ r2 < 0xE000 then
    some (Char.ofNat ((r1 - 0xD800) * 0x400 + (r2 - 0xDC00) + 0x10000))
  else none

/-- The character a one-letter escape stands for; `none` for a letter the scanner
rejects. -/
def simpleEscape (e : Char) : Option Char :=
  if e = '"' then some '"'
  else if e = '\\' then some '\\'
  else if e = '/' then some '/'
  else if e = 'b' then some '\x08'
  else if e = 'f' then some '\x0c'
  else if e = 'n' then some '\n'
  else if e = 'r' then some '\r'
  else if e = 't' then some '\t'
  else none

/-- Put a decoded character in front of the decoded rest. -/
def consDecoded (c : Char) : Option (Text × Text) → Option (Text × Text)
  | none => none
  | some (v, rest) => some (c :: v, rest)

/-- Reading a string literal from the character after its opening quote, as the scanner
and `unquote` of `encoding/json` do together: the decoded value and the text after the
closing quote, or `none` for a raw control character, an escape the scanner rejects or a
missing closing quote.  The first argument bounds the number of steps. -/
def decodeLoop : Nat → Text → Option (Text × Text)
  | 0, _ => none
  | _ + 1, [] => none
  | n + 1, c :: t =>
    if c = '"' then some ([], t)
    else if c = '\\' then
      match t with
      | [] => none
      | e :: t1 =>
        if e = 'u' then
          match getu4 (c :: t) with
          | none => none
          | some rr =>
            let t2 := t1.drop 4
            if 0xD800 ≤ rr ∧ rr < 0xE000 then
              match (getu4 t2).bind (decodeSurrogates rr) with
              | some dec => consDecoded dec (decodeLoop n (t2.drop 6))
              | none => consDecoded '\ufffd' (decodeLoop n t2)
            else consDecoded (Char.ofNat rr) (decodeLoop n t2)
        else
          match simpleEscape e with
          | none => none
          | some x => consDecoded x (decodeLoop n t1)
    else if c.toNat < 0x20 then none
    else consDecoded c (decodeLoop n t)

/-- Decoding of the string literal whose opening quote has just been read. -/
def decodeString (s : Text) : Option (Text × Text) :=
  decodeLoop (s.length + 1) s

/-! ## `filepath.Join` (Unix) -/

/-- The elements of a path between its separators. -/
def splitSlash : Text → List Text
  | [] => [[]]
  | c :: t =>
    if c = '/' then [] :: splitSlash t
    else
      match splitSlash t with
      | [] => [[c]]
      | h :: r => (c :: h) :: r

/-- `strings.Join(elems, "/")`. -/
def joinSlash : List Text → Text
  | [] => []
  | [x] => x
  | x :: y :: r => x ++ '/' :: joinSlash (y :: r)

/-- One path element processed by `filepath.Clean`, on the elements kept so far (last
one first): empty and `.` elements are dropped, `..` removes the element before it,
or is kept at the start of a path that is not rooted, or is dropped at the root. -/
def cleanStep (rooted : Bool) (kept : List Text) (el : Text) : List Text :=
  if el = [] ∨ el = ".".toList then kept
  else if el = "..".toList then
    match kept with
    | [] => if rooted then [] else [el]
    | top :: below => if top = "..".toList then el :: kept else below
  else el :: kept

/-- `filepath.Clean` on a system whose separator is `/` and that has no volume names. -/
def Clean (path : Text) : Text :=
  let rooted := path.head? = some '/'
  let body := joinSlash ((splitSlash path).foldl (cleanStep rooted) []).reverse
  if rooted then '/' :: body
  else if body = [] then ".".toList
  else body

/-- `filepath.Join`: empty leading elements are ignored, the rest is joined with `/` and
cleaned; the result is empty when every element is. -/
def Join : List Text → Text
  | [] => []
  | e :: rest => if e = [] then Join rest else Clean (joinSlash (e :: rest))

/-! ## `SaveToDirectory` -/

/-- The state of the file system: the contents of every path that holds a file. -/
abbrev FS := Text → Option Text

/-- The file system after a successful `os.WriteFile(path, bs, 0o600)`. -/
def writeFile (fs : FS) (path bs : Text) : FS :=
  fun p => if p = path then some bs else fs p

/-- The path `SaveToDirectory` writes the query called `name` to. -/
def targetPath (destination name : Text) : Text :=
  Join [destination, name ++ ".sql".toList]

/-- `SaveToDirectory`, with the single-query renderer `Render` (declared outside
`pack.go`) and the failures of `os.WriteFile` (`writeErr fs path` is the error the write
to `path` meets in state `fs`, if any) as parameters.  The result is the returned error
or, when `nil` is returned, the file system the call leaves behind. -/
def SaveToDirectory (Render : Option Metadata → Except Text Text)
    (writeErr : FS → Text → Option Text) (destination : Text) :
    QueryMap → FS → Except Text FS
  | [], fs => .ok fs
  | (name, m) :: rest, fs =>
    match Render m with
    | .error err => .error ("render: ".toList ++ err)
    | .ok s =>
      let path := targetPath destination name
      match writeErr fs path with
      | some err => .error ("write file: ".toList ++ err)
      | none => SaveToDirectory Render writeErr destination rest (writeFile fs path s)

/-! ## Auxiliary notions for the statements -/

/-- Two texts disagree at a position both have. -/
def clash : Text → Text → Bool
  | a :: p, b :: q => a != b || clash p q
  | _, _ => false

/-- The segments `segs` put one after the other with `sep` between neighbours. -/
def joinWith (sep : Text) : List Text → Text
  | [] => []
  | [x] => x
  | x :: y :: r => x ++ sep ++ joinWith sep (y :: r)

/-! ## Example data -/

/-- A decoded pack with platform `darwin`, one query without a platform, one query for
`linux`, and a discovery query; the query texts hold the two characters backslash, `n`
where the file had a continuation line. -/
def examplePack : Pack :=
  { Queries := [("a".toList, some ⟨"select 1 \\nfrom t".toList, [], "60".toList⟩),
                ("b".toList, some ⟨"select 2".toList, "linux".toList, "3600".toList⟩)]
    Discovery := [("d".toList, some ⟨"select 3 \\nfrom u".toList, [], []⟩)]
    Platform := "darwin".toList }

/-- What `json.Unmarshal` yields for `{"queries": {"q": null}}`: the map holds a nil
pointer under `q`. -/
def nullEntryPack : Pack :=
  { Queries := [("q".toList, none)] }

/-- A file system in which every read yields the given contents. -/
def readsAs (bs : Text) : Text → Except Text Text :=
  fun _ => .ok bs

/-- A decoder that yields the given pack. -/
def decodesTo (pack : Pack) : Text → Except Text Pack :=
  fun _ => .ok pack

/-- An encoder used to instantiate statements about `RenderPack`: it writes the object
that maps every query name to its query text, with the string encoding of
`encoding/json`. -/
def exampleMarshal (p : Pack) : Except Text Text :=
  .ok ('\x7b' :: joinWith ",".toList (p.Queries.map fun e =>
    encodeString e.1 ++ ':' :: (match e.2 with
      | some m => encodeString m.Query
      | none => "null".toList)) ++ "\x7d".toList)

/-! ## The interval repair, in the words of the specification -/

/-- The text `m` is an occurrence of `"interval"`, optional whitespace, `:`, optional
whitespace, the non-empty run of decimal digits `d`, and a comma. -/
def IsOccurrence (m d : Text) : Prop :=
  ∃ ws1 ws2 : Text, (∀ c ∈ ws1, isSpace c = true) ∧ (∀ c ∈ ws2, isSpace c = true) ∧
    d ≠ [] ∧ (∀ c ∈ d, isDigit c = true) ∧
    m = intervalKey ++ ws1 ++ ':' :: ws2 ++ d ++ [',']

/-- The relation between a document and its repaired form that the specification
describes: every occurrence, met from left to right, is rewritten to `"interval": "d",`
with its digit run `d`, and every character at which no occurrence starts is kept. -/
inductive IntervalRewritten : Text → Text → Prop
  | done : IntervalRewritten [] []
  | occurrence (m d rest out : Text) : IsOccurrence m d → IntervalRewritten rest out →
      IntervalRewritten (m ++ rest) ("\"interval\": \"".toList ++ d ++ "\",".toList ++ out)
  | copy (c : Char) (t out : Text) : (∀ m d, IsOccurrence m d → ¬ m <+: c :: t) →
      IntervalRewritten t out → IntervalRewritten (c :: t) (c :: out)

/-- A single-query renderer used to instantiate statements about `SaveToDirectory`: it
writes the query text, and fails on a nil pointer. -/
def exampleRender : Option Metadata → Except Text Text
  | some v => .ok v.Query
  | none => .error "nil metadata".toList

/-- The empty file system. -/
def emptyFS : FS := fun _ => none

/-- The directory part that `filepath.Join` puts in front of a file name without
separator: the cleaned destination followed by one separator, and nothing when the
destination is empty or cleans to the current directory. -/
def dirPrefix (destination : Text) : Text :=
  if destination = [] then []
  else
    let rooted := destination.head? = some '/'
    let kept := (splitSlash destination).foldl (cleanStep rooted) []
    (if rooted then ['/'] else []) ++ (if kept = [] then [] else joinSlash kept.reverse ++ ['/'])

/-- A text free of backslashes, double quotes and control characters. -/
def plainText (s : Text) : Prop :=
  ∀ c ∈ s, c ≠ '\\' ∧ c ≠ '"' ∧ 0x20 ≤ c.toNat

instance (s : Text) : Decidable (plainText s) := by
  unfold plainText
  infer_instance

/-- The value `value` is what the string decoder of `encoding/json` reads from the string
literal that starts in `text` right after `before`. -/
def ReadsStringAfter (text before value : Text) : Prop :=
  ∃ lit rest : Text, text = before ++ '"' :: lit ∧ decodeString lit = some (value, rest)

/-- What the decoder yields for a pack file with the single query `q` whose text was written
with one continuation line: the query text holds the two characters backslash, `n`. -/
def continuationPack : Pack :=
  { Queries := [("q".toList, some ⟨"select 1 \\nfrom t".toList, [], []⟩)] }

/-! ## Facts about `ReplaceAll` -/

theorem isPrefixOf_eq_split {old s : Text} (h : old.isPrefixOf s = true) :
    s = old ++ s.drop old.length := by
  have hp : old <+: s := List.isPrefixOf_iff_prefix.mp h
  obtain ⟨r, rfl⟩ := hp
  simp

theorem replaceLoop_fuel (old new : Text) (hold : old ≠ []) :
    ∀ (n m : Nat) (s : Text), s.length ≤ n → s.length ≤ m →
      replaceLoop old new n s = replaceLoop old new m s := by
  intro n
  induction n with
  | zero =>
    intro m s hn _
    have hs : s = [] := List.eq_nil_of_length_eq_zero (Nat.le_zero.mp hn)
    subst hs
    cases m <;> simp [replaceLoop]
  | succ n ih =>
    intro m s hn hm
    cases s with
    | nil => cases m <;> simp [replaceLoop]
    | cons c t =>
      cases m with
      | zero => simp at hm
      | succ m =>
        have hlen : 0 < old.length := List.length_pos.mpr hold
        simp only [replaceLoop]
        split
        · have h1 : ((c :: t).drop old.length).length ≤ t.length := by
            simp only [List.length_drop, List.length_cons]; omega
          simp only [List.length_cons] at hn hm
          rw [ih m _ (by omega) (by omega)]
        · simp only [List.length_cons] at hn hm
          rw [ih m t (by omega) (by omega)]

theorem ReplaceAll_nil (old new : Text) (hold : old ≠ []) : ReplaceAll [] old new = [] := by
  simp [ReplaceAll, hold, replaceLoop]

theorem ReplaceAll_cons_of_no_match (old new : Text) (hold : old ≠ []) (c : Char) (t : Text)
    (h : ¬ old <+: c :: t) : ReplaceAll (c :: t) old new = c :: ReplaceAll t old new := by
  have hb : old.isPrefixOf (c :: t) = false := by
    cases hx : old.isPrefixOf (c :: t) with
    | false => rfl
    | true => exact absurd (List.isPrefixOf_iff_prefix.mp hx) h
  simp only [ReplaceAll, hold, if_false, List.length_cons, replaceLoop, hb]
  simp

theorem ReplaceAll_append_old (old new : Text) (hold : old ≠ []) (rest : Text) :
    ReplaceAll (old ++ rest) old new = new ++ ReplaceAll rest old new := by
  have hlen : 0 < old.length := List.length_pos.mpr hold
  have hb : old.isPrefixOf (old ++ rest) = true :=
    List.isPrefixOf_iff_prefix.mpr ⟨rest, rfl⟩
  have hd : (old ++ rest).drop old.length = rest := by simp
  obtain ⟨c, t, hct⟩ : ∃ c t, old ++ rest = c :: t := by
    cases old with
    | nil => exact absurd rfl hold
    | cons a o => exact ⟨a, o ++ rest, rfl⟩
  have hl : (old ++ rest).length = t.length + 1 := by rw [hct]; simp
  have hr : rest.length ≤ t.length := by
    have := congrArg List.length hct
    simp only [List.length_append, List.length_cons] at this
    omega
  unfold ReplaceAll
  rw [if_neg hold, if_neg hold, hl]
  rw [hct] at hb hd
  rw [hct]
  simp only [replaceLoop, hb, if_true, hd]
  congr 1
  exact replaceLoop_fuel _ _ hold _ _ _ hr (le_refl _)


/-- An occurrence of `old` that starts inside `x` cannot reach into `Z` when the first
character of `Z` does not occur in `old` after its first character. -/
theorem prefix_of_prefix_append (old : Text) (c : Char) (t Z : Text)
    (hZ : ∀ z, Z.head? = some z → z ∉ old.tail) (h : old <+: (c :: t) ++ Z) :
    old <+: c :: t := by
  by_cases hl : old.length ≤ (c :: t).length
  · exact List.prefix_of_prefix_length_le h (List.prefix_append _ _) hl
  · have hx : (c :: t) <+: old :=
      List.prefix_of_prefix_length_le (List.prefix_append _ _) h (by omega)
    obtain ⟨r, hr⟩ := hx
    subst hr
    have hr2 : r <+: Z := (List.prefix_append_right_inj (c :: t)).mp h
    cases r with
    | nil => simp at hl
    | cons z r' =>
      obtain ⟨w, hw⟩ := hr2
      exact absurd (by simp) (hZ z (by rw [← hw]; rfl))

theorem ReplaceAll_append (old new : Text) (hold : old ≠ []) (Z : Text)
    (hZ : ∀ z, Z.head? = some z → z ∉ old.tail) :
    ∀ (n : Nat) (x : Text), x.length ≤ n →
      ReplaceAll (x ++ Z) old new = ReplaceAll x old new ++ ReplaceAll Z old new := by
  intro n
  induction n with
  | zero =>
    intro x hx
    have : x = [] := List.eq_nil_of_length_eq_zero (Nat.le_zero.mp hx)
    subst this
    simp [ReplaceAll_nil old new hold]
  | succ n ih =>
    intro x hx
    cases x with
    | nil => simp [ReplaceAll_nil old new hold]
    | cons c t =>
      by_cases hp : old <+: c :: t
      · obtain ⟨r, hr⟩ := hp
        have hlen : 0 < old.length := List.length_pos.mpr hold
        have hrl : r.length ≤ n := by
          have := congrArg List.length hr
          simp only [List.length_append, List.length_cons] at this hx
          omega
        rw [← hr, List.append_assoc, ReplaceAll_append_old _ _ hold, ReplaceAll_append_old _ _ hold,
          ih r hrl, List.append_assoc]
      · have hp2 : ¬ old <+: c :: (t ++ Z) := fun h =>
          hp (prefix_of_prefix_append old c t Z hZ h)
        simp only [List.length_cons] at hx
        rw [List.cons_append, ReplaceAll_cons_of_no_match _ _ hold _ _ hp2,
          ReplaceAll_cons_of_no_match _ _ hold _ _ hp, ih t (by omega), List.cons_append]

/-- A text in which the first character of `old` does not occur is left as it is. -/
theorem ReplaceAll_of_head_not_mem (a : Char) (o new : Text) :
    ∀ s : Text, a ∉ s → ReplaceAll s (a :: o) new = s := by
  intro s
  induction s with
  | nil => intro _; exact ReplaceAll_nil _ _ (by simp)
  | cons c t ih =>
    intro h
    have hc : a ≠ c := fun e => h (by simp [e])
    have ht : a ∉ t := fun e => h (by simp [e])
    have hp : ¬ (a :: o) <+: c :: t := by
      intro hx
      obtain ⟨r, hr⟩ := hx
      simp only [List.cons_append, List.cons.injEq] at hr
      exact hc hr.1
    rw [ReplaceAll_cons_of_no_match _ _ (by simp) _ _ hp, ih ht]

/-- A text that starts the result of a replacement and avoids the first character of
`new` starts the input as well. -/
theorem prefix_of_prefix_ReplaceAll (old : Text) (b : Char) (nw : Text) (hold : old ≠ []) :
    ∀ (q s : Text), b ∉ q → q <+: ReplaceAll s old (b :: nw) → q <+: s := by
  intro q
  induction q with
  | nil => intro s _ _; exact List.nil_prefix
  | cons c q ih =>
    intro s hq h
    cases s with
    | nil =>
      rw [ReplaceAll_nil _ _ hold] at h
      exact h
    | cons d t =>
      by_cases hp : old <+: d :: t
      · obtain ⟨r, hr⟩ := hp
        rw [← hr, ReplaceAll_append_old _ _ hold] at h
        obtain ⟨w, hw⟩ := h
        simp only [List.cons_append, List.cons.injEq] at hw
        exact absurd (by simp [hw.1]) hq
      · rw [ReplaceAll_cons_of_no_match _ _ hold _ _ hp] at h
        obtain ⟨w, hw⟩ := h
        simp only [List.cons_append, List.cons.injEq] at hw
        have h2 : q <+: t := ih t (fun e => hq (by simp [e])) ⟨w, hw.2⟩
        obtain ⟨w2, hw2⟩ := h2
        exact ⟨w2, by simp [hw.1, hw2]⟩

theorem not_prefix_of_clash : ∀ (p q R : Text), clash p q = true → ¬ p <+: q ++ R := by
  intro p
  induction p with
  | nil => intro q R h; simp [clash] at h
  | cons a p ih =>
    intro q R h hp
    cases q with
    | nil => simp [clash] at h
    | cons b q =>
      obtain ⟨w, hw⟩ := hp
      simp only [List.cons_append, List.cons.injEq] at hw
      simp only [clash, Bool.or_eq_true, bne_iff_ne, ne_eq] at h
      rcases h with h | h
      · exact h hw.1
      · exact ih q R h ⟨w, hw.2⟩

theorem infix_append_cases (p : Text) : ∀ (nw R : Text), p <:+: nw ++ R →
    (∃ i, i < nw.length ∧ p <+: nw.drop i ++ R) ∨ p <:+: R := by
  intro nw
  induction nw with
  | nil => intro R h; exact Or.inr h
  | cons b nw ih =>
    intro R h
    rw [List.cons_append, List.infix_cons_iff] at h
    rcases h with h | h
    · exact Or.inl ⟨0, by simp, by simpa using h⟩
    · rcases ih R h with ⟨i, hi, hpi⟩ | h2
      · exact Or.inl ⟨i + 1, by simpa using hi, by simpa using hpi⟩
      · exact Or.inr h2

/-- Where an occurrence of `p` in the result of a replacement comes from: when `p`
avoids the first character of `new` and cannot start inside a copy of `new`, it lies at
a place of the input where `old` does not start. -/
theorem infix_ReplaceAll_origin (old p : Text) (b : Char) (nw : Text) (hold : old ≠ [])
    (hb : b ∉ p) (hbar : ∀ i, i < (b :: nw).length → clash p ((b :: nw).drop i) = true) :
    ∀ (n : Nat) (s : Text), s.length ≤ n → p <:+: ReplaceAll s old (b :: nw) →
      ∃ u, u <:+ s ∧ p <+: u ∧ ¬ old <+: u := by
  intro n
  induction n with
  | zero =>
    intro s hs h
    have : s = [] := List.eq_nil_of_length_eq_zero (Nat.le_zero.mp hs)
    subst this
    rw [ReplaceAll_nil _ _ hold] at h
    refine ⟨[], List.suffix_refl _, ?_, ?_⟩
    · have := List.eq_nil_of_infix_nil h
      rw [this]
    · intro hx
      exact hold (List.eq_nil_of_prefix_nil hx)
  | succ n ih =>
    intro s hs h
    cases s with
    | nil =>
      rw [ReplaceAll_nil _ _ hold] at h
      refine ⟨[], List.suffix_refl _, ?_, ?_⟩
      · have := List.eq_nil_of_infix_nil h
        rw [this]
      · intro hx
        exact hold (List.eq_nil_of_prefix_nil hx)
    | cons c t =>
      simp only [List.length_cons] at hs
      by_cases hp : old <+: c :: t
      · obtain ⟨r, hr⟩ := hp
        have hlen : 0 < old.length := List.length_pos.mpr hold
        have hrl : r.length ≤ n := by
          have := congrArg List.length hr
          simp only [List.length_append, List.length_cons] at this
          omega
        rw [← hr, ReplaceAll_append_old _ _ hold] at h
        rcases infix_append_cases p _ _ h with ⟨i, hi, hpi⟩ | h2
        · exact absurd hpi (not_prefix_of_clash _ _ _ (hbar i hi))
        · obtain ⟨u, hu, hpu, hou⟩ := ih r hrl h2
          exact ⟨u, hr ▸ (hu.trans (List.suffix_append _ _)), hpu, hou⟩
      · rw [ReplaceAll_cons_of_no_match _ _ hold _ _ hp, List.infix_cons_iff] at h
        rcases h with h | h
        · have h1 : p <+: ReplaceAll (c :: t) old (b :: nw) := by
            rw [ReplaceAll_cons_of_no_match _ _ hold _ _ hp]; exact h
          exact ⟨c :: t, List.suffix_refl _, prefix_of_prefix_ReplaceAll old b nw hold p _ hb h1, hp⟩
        · obtain ⟨u, hu, hpu, hou⟩ := ih t (by omega) h
          exact ⟨u, hu.trans (List.suffix_cons _ _), hpu, hou⟩

/-- No occurrence of `old` is left by a replacement whose `new` cannot overlap one. -/
theorem not_infix_ReplaceAll_self (old : Text) (b : Char) (nw : Text) (hold : old ≠ [])
    (hb : b ∉ old) (hbar : ∀ i, i < (b :: nw).length → clash old ((b :: nw).drop i) = true)
    (s : Text) : ¬ old <:+: ReplaceAll s old (b :: nw) := by
  intro h
  obtain ⟨u, _, hpu, hou⟩ := infix_ReplaceAll_origin old old b nw hold hb hbar _ s (le_refl _) h
  exact hou hpu

/-- A replacement whose `new` cannot overlap `p` creates no occurrence of `p`. -/
theorem not_infix_ReplaceAll (old p : Text) (b : Char) (nw : Text) (hold : old ≠ [])
    (hb : b ∉ p) (hbar : ∀ i, i < (b :: nw).length → clash p ((b :: nw).drop i) = true)
    (s : Text) (hs : ¬ p <:+: s) : ¬ p <:+: ReplaceAll s old (b :: nw) := by
  intro h
  obtain ⟨u, hu, hpu, _⟩ := infix_ReplaceAll_origin old p b nw hold hb hbar _ s (le_refl _) h
  exact hs (hpu.isInfix.trans hu.isInfix)

/-! ## Facts about `massage` -/

theorem ReplaceAll_cons_of_ne (a : Char) (o new : Text) (c : Char) (t : Text) (h : c ≠ a) :
    ReplaceAll (c :: t) (a :: o) new = c :: ReplaceAll t (a :: o) new := by
  apply ReplaceAll_cons_of_no_match _ _ (by simp)
  intro hx
  obtain ⟨r, hr⟩ := hx
  simp only [List.cons_append, List.cons.injEq] at hr
  exact h hr.1.symm

/-- A character outside `old` is copied, and splits the text into two parts that are
rewritten independently. -/
theorem ReplaceAll_append_cons (old new : Text) (hold : old ≠ []) (c : Char) (hc : c ∉ old)
    (x y : Text) :
    ReplaceAll (x ++ c :: y) old new = ReplaceAll x old new ++ c :: ReplaceAll y old new := by
  rw [ReplaceAll_append old new hold (c :: y) _ x.length x (le_refl _)]
  · congr 1
    cases old with
    | nil => exact absurd rfl hold
    | cons a o =>
      exact ReplaceAll_cons_of_ne a o new c y (fun e => hc (by simp [e]))
  · intro z hz
    simp only [List.head?_cons, Option.some.injEq] at hz
    subst hz
    exact fun h => hc (List.mem_of_mem_tail h)

/-- An occurrence of `old` is replaced, and splits the text into two parts that are
rewritten independently, when the first character of `old` does not occur again in it. -/
theorem ReplaceAll_append_old_append (a : Char) (o new : Text) (ha : a ∉ o) (x y : Text) :
    ReplaceAll (x ++ (a :: o) ++ y) (a :: o) new
      = ReplaceAll x (a :: o) new ++ new ++ ReplaceAll y (a :: o) new := by
  rw [List.append_assoc, ReplaceAll_append (a :: o) new (by simp) _ _ x.length x (le_refl _),
    ReplaceAll_append_old _ _ (by simp), List.append_assoc]
  intro z hz
  simp only [List.cons_append, List.head?_cons, Option.some.injEq] at hz
  subst hz
  simpa using ha

theorem massage_gt (X Y : Text) :
    massage (X ++ "\\u003e".toList ++ Y) = massage X ++ '>' :: massage Y := by
  unfold massage
  simp only
  rw [show "\\u003e".toList = '\\' :: "u003e".toList from rfl,
    ReplaceAll_append_old_append '\\' _ _ (by decide)]
  rw [show ReplaceAll X ('\\' :: "u003e".toList) ">".toList ++ ">".toList
        ++ ReplaceAll Y ('\\' :: "u003e".toList) ">".toList
      = ReplaceAll X ('\\' :: "u003e".toList) ">".toList
        ++ '>' :: ReplaceAll Y ('\\' :: "u003e".toList) ">".toList by simp]
  rw [ReplaceAll_append_cons _ _ (by decide) '>' (by decide),
    ReplaceAll_append_cons _ _ (by decide) '>' (by decide)]

theorem massage_lt (X Y : Text) :
    massage (X ++ "\\u003c".toList ++ Y) = massage X ++ '<' :: massage Y := by
  unfold massage
  simp only
  have h1 : ReplaceAll (X ++ "\\u003c".toList ++ Y) "\\u003e".toList ">".toList
      = ReplaceAll X "\\u003e".toList ">".toList ++ "\\u003c".toList
        ++ ReplaceAll Y "\\u003e".toList ">".toList := by
    rw [List.append_assoc, ReplaceAll_append _ _ (by decide) _ _ X.length X (le_refl _)]
    · rw [List.append_assoc]
      congr 1
    · intro z hz
      have : z = '\\' := by
        simp [String.toList] at hz
        exact hz.symm
      subst this
      decide
  rw [h1, show "\\u003c".toList = '\\' :: "u003c".toList from rfl,
    ReplaceAll_append_old_append '\\' _ _ (by decide)]
  rw [show ReplaceAll (ReplaceAll X "\\u003e".toList ">".toList) ('\\' :: "u003c".toList) "<".toList
        ++ "<".toList
        ++ ReplaceAll (ReplaceAll Y "\\u003e".toList ">".toList) ('\\' :: "u003c".toList) "<".toList
      = ReplaceAll (ReplaceAll X "\\u003e".toList ">".toList) ('\\' :: "u003c".toList) "<".toList
        ++ '<' :: ReplaceAll (ReplaceAll Y "\\u003e".toList ">".toList) ('\\' :: "u003c".toList)
          "<".toList by simp]
  rw [ReplaceAll_append_cons _ _ (by decide) '<' (by decide)]

theorem massage_no_escaped_gt (out : Text) : ¬ "\\u003e".toList <:+: massage out := by
  unfold massage
  simp only
  apply not_infix_ReplaceAll _ _ ' ' "\\\n    ".toList (by decide) (by decide) (by decide)
  apply not_infix_ReplaceAll _ _ '<' [] (by decide) (by decide) (by decide)
  exact not_infix_ReplaceAll_self _ '>' [] (by decide) (by decide) (by decide) _

theorem massage_no_escaped_lt (out : Text) : ¬ "\\u003c".toList <:+: massage out := by
  unfold massage
  simp only
  apply not_infix_ReplaceAll _ _ ' ' "\\\n    ".toList (by decide) (by decide) (by decide)
  exact not_infix_ReplaceAll_self _ '<' [] (by decide) (by decide) (by decide) _

theorem encodeBody_append (a b : Text) : encodeBody (a ++ b) = encodeBody a ++ encodeBody b := by
  simp [encodeBody]

theorem encodeBody_cons (c : Char) (b : Text) : encodeBody (c :: b) = encodeChar c ++ encodeBody b := by
  simp [encodeBody]

/-! ## Facts about the final loop of `LoadPack` -/

theorem prefix_joinWith (sep g : Text) (gs : List Text) : g <+: joinWith sep (g :: gs) := by
  cases gs with
  | nil => exact List.prefix_refl _
  | cons y r => exact ⟨sep ++ joinWith sep (y :: r), by simp [joinWith]⟩

theorem joinWith_cons_cons (sep : Text) (c : Char) (g : Text) (gs : List Text) :
    joinWith sep ((c :: g) :: gs) = c :: joinWith sep (g :: gs) := by
  cases gs with
  | nil => rfl
  | cons y r => simp [joinWith]

/-- What `ReplaceAll` does, in words: the text is a sequence of segments free of `old`
separated by `old`, and the result is the same segments separated by `new`. -/
theorem ReplaceAll_segments (old new : Text) (hold : old ≠ []) :
    ∀ (n : Nat) (s : Text), s.length ≤ n →
      ∃ segs : List Text, segs ≠ [] ∧ s = joinWith old segs ∧
        ReplaceAll s old new = joinWith new segs ∧ ∀ g ∈ segs, ¬ old <:+: g := by
  have hnil : ¬ old <:+: ([] : Text) := fun h => hold (List.eq_nil_of_infix_nil h)
  intro n
  induction n with
  | zero =>
    intro s hs
    have : s = [] := List.eq_nil_of_length_eq_zero (Nat.le_zero.mp hs)
    subst this
    exact ⟨[[]], by simp, rfl, by simp [ReplaceAll_nil _ _ hold, joinWith], by simpa using hnil⟩
  | succ n ih =>
    intro s hs
    cases s with
    | nil =>
      exact ⟨[[]], by simp, rfl, by simp [ReplaceAll_nil _ _ hold, joinWith], by simpa using hnil⟩
    | cons c t =>
      simp only [List.length_cons] at hs
      by_cases hp : old <+: c :: t
      · obtain ⟨r, hr⟩ := hp
        have hlen : 0 < old.length := List.length_pos.mpr hold
        have hrl : r.length ≤ n := by
          have := congrArg List.length hr
          simp only [List.length_append, List.length_cons] at this
          omega
        obtain ⟨segs, hne, hs1, hs2, hs3⟩ := ih r hrl
        cases segs with
        | nil => exact absurd rfl hne
        | cons g gs =>
          refine ⟨[] :: g :: gs, by simp, ?_, ?_, ?_⟩
          · rw [← hr, hs1]; simp [joinWith]
          · rw [← hr, ReplaceAll_append_old _ _ hold, hs2]; simp [joinWith]
          · intro x hx
            rcases List.mem_cons.mp hx with rfl | hx
            · exact hnil
            · exact hs3 x hx
      · obtain ⟨segs, hne, hs1, hs2, hs3⟩ := ih t (by omega)
        cases segs with
        | nil => exact absurd rfl hne
        | cons g gs =>
          refine ⟨(c :: g) :: gs, by simp, ?_, ?_, ?_⟩
          · rw [joinWith_cons_cons, ← hs1]
          · rw [ReplaceAll_cons_of_no_match _ _ hold _ _ hp, hs2, joinWith_cons_cons]
          · intro x hx
            rcases List.mem_cons.mp hx with rfl | hx
            · intro hinf
              rcases List.infix_cons_iff.mp hinf with h1 | h1
              · apply hp
                have hg : g <+: t := hs1 ▸ prefix_joinWith old g gs
                exact h1.trans ((List.prefix_cons_inj c).mpr hg)
              · exact hs3 g (by simp) h1
            · exact hs3 x (by simp [hx])

theorem finalRepairs_eq_some (plat : Text) : ∀ (qs qs' : QueryMap),
    finalRepairs plat qs = some qs' ↔
      (∀ e ∈ qs, e.2 ≠ none) ∧ qs' = qs.map (fun e => (e.1, e.2.map (repairEntry plat))) := by
  intro qs
  induction qs with
  | nil =>
    intro qs'
    simp [finalRepairs, eq_comm]
  | cons e rest ih =>
    intro qs'
    obtain ⟨name, v⟩ := e
    cases v with
    | none => simp [finalRepairs]
    | some v =>
      simp only [finalRepairs]
      cases hrec : finalRepairs plat rest with
      | none =>
        have := (ih (rest.map (fun e => (e.1, e.2.map (repairEntry plat))))).not.mp (by simp [hrec])
        simp only [List.mem_cons, forall_eq_or_imp, ne_eq, not_false_eq_true, reduceCtorEq,
          true_and, List.map_cons, Option.map_some', false_iff, not_and]
        intro hall
        exact absurd ⟨hall, rfl⟩ this
      | some r =>
        obtain ⟨h1, h2⟩ := (ih r).mp hrec
        subst h2
        simp only [Option.some.injEq, List.mem_cons, forall_eq_or_imp, ne_eq, not_false_eq_true,
          reduceCtorEq, true_and, List.map_cons, Option.map_some']
        constructor
        · intro h; exact ⟨h1, h.symm⟩
        · intro h; exact h.2.symm

theorem finalRepairs_eq_none (plat : Text) (qs : QueryMap) (name : Text)
    (h : (name, none) ∈ qs) : finalRepairs plat qs = none := by
  cases hx : finalRepairs plat qs with
  | none => rfl
  | some qs' =>
    exact absurd rfl (((finalRepairs_eq_some plat qs qs').mp hx).1 _ h)

theorem repairEntry_Query (plat : Text) (v : Metadata) :
    (repairEntry plat v).Query = ReplaceAll v.Query "\\n".toList "\n".toList := by
  unfold repairEntry
  split <;> rfl

/-- The pack `LoadPack` returns when the read and the decode succeed and no entry of
`queries` is nil. -/
theorem LoadPack_eq_ok (readFile : Text → Except Text Text)
    (unmarshal : Text → Except Text Pack) (path bs : Text) (pack : Pack)
    (hread : readFile path = .ok bs) (hdec : unmarshal (textRepair bs) = .ok pack)
    (hall : ∀ e ∈ pack.Queries, e.2 ≠ none) :
    LoadPack readFile unmarshal path =
      .ok { pack with Queries := List.map (fun e => (e.1, e.2.map (repairEntry pack.Platform))) pack.Queries } := by
  have h := (finalRepairs_eq_some pack.Platform pack.Queries _).mpr ⟨hall, rfl⟩
  simp only [LoadPack, hread, hdec, h]

/-- The four ways a call of `LoadPack` can end: a read error, a decode error, a returned
pack (no nil entry in the decoded `queries`), or a panic (some nil entry). -/
theorem LoadPack_cases (readFile : Text → Except Text Text)
    (unmarshal : Text → Except Text Pack) (path : Text) :
    (∃ err, readFile path = .error err ∧
      LoadPack readFile unmarshal path = .error ("read: ".toList ++ err)) ∨
    (∃ bs err, readFile path = .ok bs ∧ unmarshal (textRepair bs) = .error err ∧
      LoadPack readFile unmarshal path = .error ("unmarshal: ".toList ++ err)) ∨
    (∃ bs pack qs, readFile path = .ok bs ∧ unmarshal (textRepair bs) = .ok pack ∧
      (∀ e ∈ pack.Queries, e.2 ≠ none) ∧
      LoadPack readFile unmarshal path = .ok { pack with Queries := qs }) ∨
    (∃ bs pack name, readFile path = .ok bs ∧ unmarshal (textRepair bs) = .ok pack ∧
      (name, none) ∈ pack.Queries ∧ LoadPack readFile unmarshal path = .panic) := by
  cases hread : readFile path with
  | error err => exact Or.inl ⟨err, rfl, by simp only [LoadPack, hread]⟩
  | ok bs =>
    cases hdec : unmarshal (textRepair bs) with
    | error err => exact Or.inr (Or.inl ⟨bs, err, rfl, hdec, by simp only [LoadPack, hread, hdec]⟩)
    | ok pack =>
      by_cases hall : ∀ e ∈ pack.Queries, e.2 ≠ none
      · exact Or.inr (Or.inr (Or.inl ⟨bs, pack, _, rfl, hdec, hall,
          LoadPack_eq_ok readFile unmarshal path bs pack hread hdec hall⟩))
      · simp only [ne_eq, not_forall, not_not] at hall
        obtain ⟨⟨name, v⟩, hmem, hv⟩ := hall
        simp only at hv
        subst hv
        refine Or.inr (Or.inr (Or.inr ⟨bs, pack, name, rfl, hdec, hmem, ?_⟩))
        simp only [LoadPack, hread, hdec, finalRepairs_eq_none pack.Platform pack.Queries name hmem]

/-! ## Facts about the `nakedInterval` pattern -/

theorem stripPrefix_eq_some : ∀ (p s s1 : Text), stripPrefix p s = some s1 ↔ s = p ++ s1 := by
  intro p
  induction p with
  | nil => intro s s1; simp [stripPrefix, eq_comm]
  | cons a p ih =>
    intro s s1
    cases s with
    | nil => simp [stripPrefix]
    | cons b s =>
      simp only [stripPrefix, List.cons_append, List.cons.injEq]
      by_cases hab : a = b
      · simp [hab, ih]
      · simp [hab, Ne.symm hab]

theorem dropWhile_append_of_all (p : Char → Bool) : ∀ (l r : Text), (∀ c ∈ l, p c = true) →
    (l ++ r).dropWhile p = r.dropWhile p := by
  intro l
  induction l with
  | nil => intro r _; rfl
  | cons a l ih =>
    intro r h
    have ha : p a = true := h a (by simp)
    simp only [List.cons_append, List.dropWhile_cons, ha, if_true]
    exact ih r (fun c hc => h c (by simp [hc]))

theorem takeWhile_append_of_all (p : Char → Bool) : ∀ (l r : Text), (∀ c ∈ l, p c = true) →
    (l ++ r).takeWhile p = l ++ r.takeWhile p := by
  intro l
  induction l with
  | nil => intro r _; rfl
  | cons a l ih =>
    intro r h
    have ha : p a = true := h a (by simp)
    simp only [List.cons_append, List.takeWhile_cons, ha, if_true, List.cons.injEq, true_and]
    exact ih r (fun c hc => h c (by simp [hc]))

/-- The matcher finds every occurrence that starts the text. -/
theorem matchNakedInterval_of_occurrence (m d rest : Text) (h : IsOccurrence m d) :
    matchNakedInterval (m ++ rest) = some (d, rest) := by
  obtain ⟨ws1, ws2, h1, h2, hd, hdig, rfl⟩ := h
  have e1 : stripPrefix intervalKey (intervalKey ++ ws1 ++ ':' :: ws2 ++ d ++ [','] ++ rest)
      = some (ws1 ++ (':' :: (ws2 ++ (d ++ (',' :: rest))))) := by
    rw [stripPrefix_eq_some]; simp
  have e2 : (ws1 ++ (':' :: (ws2 ++ (d ++ (',' :: rest))))).dropWhile isSpace
      = ':' :: (ws2 ++ (d ++ (',' :: rest))) := by
    rw [dropWhile_append_of_all _ _ _ h1]
    rfl
  have e3 : (ws2 ++ (d ++ (',' :: rest))).dropWhile isSpace = d ++ (',' :: rest) := by
    rw [dropWhile_append_of_all _ _ _ h2]
    cases d with
    | nil => exact absurd rfl hd
    | cons x d =>
      have hx : isDigit x = true := hdig x (by simp)
      have : isSpace x = false := by
        cases hs : isSpace x with
        | false => rfl
        | true =>
          simp only [isSpace, Bool.or_eq_true, decide_eq_true_eq] at hs
          rcases hs with (((rfl | rfl) | rfl) | rfl) | rfl <;> simp [isDigit] at hx
      simp [List.dropWhile_cons, this]
  have e4 : (d ++ (',' :: rest)).takeWhile isDigit = d := by
    rw [takeWhile_append_of_all _ _ _ hdig]
    simp [List.takeWhile_cons, show isDigit ',' = false from by decide]
  have e5 : (d ++ (',' :: rest)).dropWhile isDigit = ',' :: rest := by
    rw [dropWhile_append_of_all _ _ _ hdig]
    simp [List.dropWhile_cons, show isDigit ',' = false from by decide]
  unfold matchNakedInterval
  rw [e1]
  simp only [e2, if_true, e3, e4, e5, hd, ne_eq, not_false_eq_true, and_self]

/-- What the matcher finds is an occurrence that starts the text. -/
theorem occurrence_of_matchNakedInterval (s d rest : Text)
    (h : matchNakedInterval s = some (d, rest)) : ∃ m, IsOccurrence m d ∧ s = m ++ rest := by
  unfold matchNakedInterval at h
  cases h1 : stripPrefix intervalKey s with
  | none => simp [h1] at h
  | some s1 =>
    simp only [h1] at h
    have hs : s = intervalKey ++ s1 := (stripPrefix_eq_some _ _ _).mp h1
    cases h2 : s1.dropWhile isSpace with
    | nil => simp [h2] at h
    | cons c s3 =>
      simp only [h2] at h
      by_cases hc : c = ':'
      · subst hc
        simp only [if_true] at h
        cases h3 : (s3.dropWhile isSpace).dropWhile isDigit with
        | nil => simp [h3] at h
        | cons e r =>
          simp only [h3] at h
          by_cases he : e = ',' ∧ (s3.dropWhile isSpace).takeWhile isDigit ≠ []
          · simp only [he, ne_eq, not_false_eq_true, and_self, if_true, Option.some.injEq,
              Prod.mk.injEq] at h
            obtain ⟨hd, hr⟩ := h
            subst hr
            obtain ⟨he1, he2⟩ := he
            subst he1
            refine ⟨intervalKey ++ s1.takeWhile isSpace ++ ':' :: s3.takeWhile isSpace ++ d ++ [','],
              ⟨s1.takeWhile isSpace, s3.takeWhile isSpace, ?_, ?_, ?_, ?_, rfl⟩, ?_⟩
            · intro c hc; exact List.mem_takeWhile_imp hc
            · intro c hc; exact List.mem_takeWhile_imp hc
            · rw [← hd]; exact he2
            · intro c hc; rw [← hd] at hc; exact List.mem_takeWhile_imp hc
            · have a1 := List.takeWhile_append_dropWhile isSpace s1
              have a2 := List.takeWhile_append_dropWhile isSpace s3
              have a3 := List.takeWhile_append_dropWhile isDigit (s3.dropWhile isSpace)
              rw [h3, hd] at a3
              rw [h2] at a1
              rw [← a3] at a2
              rw [hs]
              conv_lhs => rw [← a1, ← a2]
              simp
          · rw [if_neg he] at h
            exact absurd h (by simp)
      · simp [hc] at h

theorem occurrence_length_pos (m d : Text) (h : IsOccurrence m d) : 0 < m.length := by
  obtain ⟨ws1, ws2, _, _, _, _, rfl⟩ := h
  simp [intervalKey]

theorem matchNakedInterval_nil : matchNakedInterval [] = none := by decide

/-- The loop rewrites the document as the specification describes. -/
theorem nakedIntervalLoop_rewritten : ∀ (n : Nat) (s : Text), s.length ≤ n →
    IntervalRewritten s (nakedIntervalLoop n s) := by
  intro n
  induction n with
  | zero =>
    intro s hs
    have : s = [] := List.eq_nil_of_length_eq_zero (Nat.le_zero.mp hs)
    subst this
    exact IntervalRewritten.done
  | succ n ih =>
    intro s hs
    unfold nakedIntervalLoop
    cases hm : matchNakedInterval s with
    | some dr =>
      obtain ⟨d, rest⟩ := dr
      obtain ⟨m, hocc, hsm⟩ := occurrence_of_matchNakedInterval s d rest hm
      have hpos := occurrence_length_pos m d hocc
      have hrl : rest.length ≤ n := by
        have := congrArg List.length hsm
        simp only [List.length_append] at this
        omega
      simp only
      rw [hsm]
      exact IntervalRewritten.occurrence m d rest _ hocc (ih rest hrl)
    | none =>
      cases s with
      | nil => exact IntervalRewritten.done
      | cons c t =>
        simp only
        refine IntervalRewritten.copy c t _ ?_ (ih t (by simpa using hs))
        intro m d hocc hpre
        obtain ⟨r, hr⟩ := hpre
        rw [← hr, matchNakedInterval_of_occurrence m d r hocc] at hm
        exact absurd hm (by simp)

/-- The description of the specification determines the result. -/
theorem nakedIntervalLoop_unique (s out : Text) (h : IntervalRewritten s out) :
    ∀ n : Nat, s.length ≤ n → out = nakedIntervalLoop n s := by
  induction h with
  | done =>
    intro n _
    cases n with
    | zero => rfl
    | succ n => simp [nakedIntervalLoop, matchNakedInterval_nil]
  | occurrence m d rest out hocc _ ih =>
    intro n hn
    have hpos := occurrence_length_pos m d hocc
    simp only [List.length_append] at hn
    cases n with
    | zero => omega
    | succ n =>
      simp only [nakedIntervalLoop, matchNakedInterval_of_occurrence m d rest hocc,
        intervalTemplate]
      rw [← ih n (by omega)]
  | copy c t out hno _ ih =>
    intro n hn
    simp only [List.length_cons] at hn
    cases n with
    | zero => omega
    | succ n =>
      have hm : matchNakedInterval (c :: t) = none := by
        cases hx : matchNakedInterval (c :: t) with
        | none => rfl
        | some dr =>
          obtain ⟨d, rest⟩ := dr
          obtain ⟨m, hocc, hsm⟩ := occurrence_of_matchNakedInterval _ d rest hx
          exact absurd ⟨rest, hsm.symm⟩ (hno m d hocc)
      simp only [nakedIntervalLoop, hm]
      rw [← ih n (by omega)]

/-! ## Facts about `filepath.Join` and `SaveToDirectory` -/

theorem splitSlash_ne_nil : ∀ s : Text, splitSlash s ≠ [] := by
  intro s
  induction s with
  | nil => simp [splitSlash]
  | cons c t ih =>
    unfold splitSlash
    split
    · simp
    · cases h : splitSlash t with
      | nil => simp
      | cons x r => simp

theorem splitSlash_of_no_slash : ∀ s : Text, '/' ∉ s → splitSlash s = [s] := by
  intro s
  induction s with
  | nil => intro _; rfl
  | cons c t ih =>
    intro h
    have hc : c ≠ '/' := fun e => h (by simp [e])
    have ht : '/' ∉ t := fun e => h (by simp [e])
    simp [splitSlash, hc, ih ht]

theorem splitSlash_cons_of_ne (c : Char) (t x : Text) (r : List Text) (hc : c ≠ '/')
    (h : splitSlash t = x :: r) : splitSlash (c :: t) = (c :: x) :: r := by
  simp [splitSlash, hc, h]

theorem splitSlash_append_slash (el : Text) (hel : '/' ∉ el) : ∀ a : Text,
    splitSlash (a ++ '/' :: el) = splitSlash a ++ [el] := by
  intro a
  induction a with
  | nil => simp [splitSlash, splitSlash_of_no_slash el hel]
  | cons c t ih =>
    by_cases hc : c = '/'
    · simp [splitSlash, hc, ih]
    · cases h : splitSlash t with
      | nil => exact absurd h (splitSlash_ne_nil t)
      | cons x r =>
        rw [List.cons_append, splitSlash_cons_of_ne c _ x (r ++ [el]) hc (by rw [ih, h]; rfl),
          splitSlash_cons_of_ne c t x r hc h]
        rfl

theorem joinSlash_cons_append_singleton (x : Text) : ∀ (l : List Text) (a : Text),
    joinSlash (a :: l ++ [x]) = joinSlash (a :: l) ++ '/' :: x := by
  intro l
  induction l with
  | nil => intro a; simp [joinSlash]
  | cons b l ih =>
    intro a
    show a ++ '/' :: joinSlash (b :: l ++ [x]) = (a ++ '/' :: joinSlash (b :: l)) ++ '/' :: x
    rw [ih b]
    simp

theorem joinSlash_append_singleton (x : Text) (l : List Text) :
    joinSlash (l ++ [x]) = if l = [] then x else joinSlash l ++ '/' :: x := by
  cases l with
  | nil => rfl
  | cons a l => simpa using joinSlash_cons_append_singleton x l a

theorem cleanStep_regular (rooted : Bool) (kept : List Text) (el : Text)
    (h1 : el ≠ []) (h2 : el ≠ ".".toList) (h3 : el ≠ "..".toList) :
    cleanStep rooted kept el = el :: kept := by
  unfold cleanStep
  rw [if_neg (not_or.mpr ⟨h1, h2⟩), if_neg h3]

theorem sql_name_regular (name : Text) :
    name ++ ".sql".toList ≠ [] ∧ name ++ ".sql".toList ≠ ".".toList ∧
      name ++ ".sql".toList ≠ "..".toList := by
  refine ⟨?_, ?_, ?_⟩ <;> intro h <;> have := congrArg List.length h <;>
    simp at this

/-- Where the file of a query whose name has no separator goes: into the cleaned
destination, under the name followed by `.sql`. -/
theorem targetPath_eq (destination name : Text) (hname : '/' ∉ name) :
    targetPath destination name = dirPrefix destination ++ name ++ ".sql".toList := by
  have hel : '/' ∉ name ++ ".sql".toList := by
    intro h
    rcases List.mem_append.mp h with h | h
    · exact hname h
    · exact absurd h (by decide)
  obtain ⟨r1, r2, r3⟩ := sql_name_regular name
  unfold targetPath dirPrefix
  by_cases hd : destination = []
  · subst hd
    have hne : name ++ ".sql".toList ≠ [] := r1
    have hhead : (name ++ ".sql".toList).head? ≠ some '/' := by
      intro h
      exact hel (List.mem_of_mem_head? h)
    simp only [Join, if_true, hne, if_false, joinSlash, Clean, hhead, decide_False,
      splitSlash_of_no_slash _ hel, List.foldl_cons, List.foldl_nil,
      cleanStep_regular _ _ _ r1 r2 r3, List.reverse_cons, List.reverse_nil, List.nil_append,
      Bool.false_eq_true]
  · obtain ⟨c, t, rfl⟩ : ∃ c t, destination = c :: t := by
      cases destination with
      | nil => exact absurd rfl hd
      | cons c t => exact ⟨c, t, rfl⟩
    simp only [Join, hd, if_false, joinSlash, Clean, List.cons_append, List.head?_cons,
      Option.some.injEq]
    rw [show c :: (t ++ '/' :: (name ++ ".sql".toList)) = (c :: t) ++ '/' :: (name ++ ".sql".toList)
      from rfl, splitSlash_append_slash _ hel, List.foldl_append]
    simp only [List.foldl_cons, List.foldl_nil, cleanStep_regular _ _ _ r1 r2 r3,
      List.reverse_cons, joinSlash_append_singleton]
    generalize List.foldl (cleanStep (decide (c = '/'))) [] (splitSlash (c :: t)) = kept
    cases kept <;> by_cases hroot : c = '/' <;> simp [hroot, r1]

theorem targetPath_injective (destination n1 n2 : Text) (h1 : '/' ∉ n1) (h2 : '/' ∉ n2)
    (h : targetPath destination n1 = targetPath destination n2) : n1 = n2 := by
  rw [targetPath_eq _ _ h1, targetPath_eq _ _ h2, List.append_assoc, List.append_assoc] at h
  exact List.append_cancel_right (List.append_cancel_left h)

/-- What a successful call leaves behind, when the target paths are pairwise distinct. -/
theorem SaveToDirectory_ok (Render : Option Metadata → Except Text Text)
    (writeErr : FS → Text → Option Text) (destination : Text) :
    ∀ (mm : QueryMap) (fs fs' : FS),
      (mm.map (fun e => targetPath destination e.1)).Nodup →
      SaveToDirectory Render writeErr destination mm fs = .ok fs' →
      (∀ e ∈ mm, ∃ s, Render e.2 = .ok s ∧ fs' (targetPath destination e.1) = some s) ∧
      ∀ p, p ∉ mm.map (fun e => targetPath destination e.1) → fs' p = fs p := by
  intro mm
  induction mm with
  | nil =>
    intro fs fs' _ h
    simp only [SaveToDirectory, Except.ok.injEq] at h
    subst h
    exact ⟨by simp, fun _ _ => rfl⟩
  | cons e rest ih =>
    intro fs fs' hnd h
    obtain ⟨name, m⟩ := e
    simp only [List.map_cons, List.nodup_cons] at hnd
    unfold SaveToDirectory at h
    cases hr : Render m with
    | error err => simp [hr] at h
    | ok s =>
      simp only [hr] at h
      cases hw : writeErr fs (targetPath destination name) with
      | some err => simp [hw] at h
      | none =>
        simp only [hw] at h
        obtain ⟨ih1, ih2⟩ := ih _ fs' hnd.2 h
        constructor
        · intro e he
          rcases List.mem_cons.mp he with rfl | he
          · refine ⟨s, hr, ?_⟩
            rw [ih2 _ hnd.1]
            simp [writeFile]
          · exact ih1 e he
        · intro p hp
          simp only [List.map_cons, List.mem_cons, not_or] at hp
          rw [ih2 p hp.2]
          simp [writeFile, hp.1]

/-! ## The interval repair on a document around a string literal -/

theorem nakedIntervalLoop_fuel (n : Nat) (s : Text) (h : s.length ≤ n) :
    nakedIntervalLoop n s = nakedIntervalReplaceAll s :=
  nakedIntervalLoop_unique s _ (nakedIntervalLoop_rewritten n s h) _ (le_refl _)

theorem nakedIntervalReplaceAll_nil : nakedIntervalReplaceAll [] = [] := rfl

theorem nakedIntervalReplaceAll_of_match (s d rest : Text)
    (h : matchNakedInterval s = some (d, rest)) :
    nakedIntervalReplaceAll s = intervalTemplate d ++ nakedIntervalReplaceAll rest := by
  obtain ⟨m, hocc, hsm⟩ := occurrence_of_matchNakedInterval s d rest h
  have hpos := occurrence_length_pos m d hocc
  have hlen : s.length = (s.length - 1) + 1 := by
    have := congrArg List.length hsm
    simp only [List.length_append] at this
    omega
  have hrl : rest.length ≤ s.length - 1 := by
    have := congrArg List.length hsm
    simp only [List.length_append] at this
    omega
  unfold nakedIntervalReplaceAll
  rw [hlen]
  simp only [nakedIntervalLoop, h]
  rw [nakedIntervalLoop_fuel _ _ hrl]
  rfl

theorem nakedIntervalReplaceAll_cons_of_no_match (c : Char) (t : Text)
    (h : matchNakedInterval (c :: t) = none) :
    nakedIntervalReplaceAll (c :: t) = c :: nakedIntervalReplaceAll t := by
  unfold nakedIntervalReplaceAll
  simp only [List.length_cons, nakedIntervalLoop, h]

theorem matchNakedInterval_of_ne_quote (c : Char) (t : Text) (h : c ≠ '"') :
    matchNakedInterval (c :: t) = none := by
  have : stripPrefix intervalKey (c :: t) = none := by
    show stripPrefix ('"' :: "interval\"".toList) (c :: t) = none
    simp [stripPrefix, Ne.symm h]
  simp [matchNakedInterval, this]

/-- A run of characters other than the double quote is copied. -/
theorem nakedIntervalReplaceAll_copy_run : ∀ (body Z : Text), (∀ c ∈ body, c ≠ '"') →
    nakedIntervalReplaceAll (body ++ Z) = body ++ nakedIntervalReplaceAll Z := by
  intro body
  induction body with
  | nil => intro Z _; rfl
  | cons c t ih =>
    intro Z h
    rw [List.cons_append, nakedIntervalReplaceAll_cons_of_no_match c _
      (matchNakedInterval_of_ne_quote c _ (h c (by simp))), ih Z (fun x hx => h x (by simp [hx]))]
    rfl

/-- The repair of a text that starts with a double quote starts with a double quote. -/
theorem nakedIntervalReplaceAll_quote (Q : Text) :
    ∃ tail, nakedIntervalReplaceAll ('"' :: Q) = '"' :: tail := by
  cases h : matchNakedInterval ('"' :: Q) with
  | none => exact ⟨_, nakedIntervalReplaceAll_cons_of_no_match _ _ h⟩
  | some dr =>
    obtain ⟨d, rest⟩ := dr
    exact ⟨_, by rw [nakedIntervalReplaceAll_of_match _ d rest h]; rfl⟩

/-- The repair of two texts put together is the two repairs put together, when no
occurrence of the pattern starts in the first text and ends in the second. -/
theorem nakedIntervalReplaceAll_append (Z : Text) :
    ∀ (n : Nat) (X : Text), X.length ≤ n →
      (∀ u, u ≠ [] → u <:+ X → ∀ m d a, IsOccurrence m d → m = u ++ a → a ≠ [] → ¬ a <+: Z) →
      nakedIntervalReplaceAll (X ++ Z) = nakedIntervalReplaceAll X ++ nakedIntervalReplaceAll Z := by
  intro n
  induction n with
  | zero =>
    intro X hX _
    have : X = [] := List.eq_nil_of_length_eq_zero (Nat.le_zero.mp hX)
    subst this
    rfl
  | succ n ih =>
    intro X hX hno
    cases X with
    | nil => rfl
    | cons c t =>
      simp only [List.length_cons] at hX
      cases hm : matchNakedInterval (c :: t) with
      | some dr =>
        obtain ⟨d, r⟩ := dr
        obtain ⟨m, hocc, hsm⟩ := occurrence_of_matchNakedInterval _ d r hm
        have hpos := occurrence_length_pos m d hocc
        have hrl : r.length ≤ n := by
          have := congrArg List.length hsm
          simp only [List.length_append, List.length_cons] at this
          omega
        have hm2 : matchNakedInterval ((c :: t) ++ Z) = some (d, r ++ Z) := by
          rw [hsm, List.append_assoc]
          exact matchNakedInterval_of_occurrence m d _ hocc
        have hsuf : r <:+ c :: t := ⟨m, hsm.symm⟩
        rw [nakedIntervalReplaceAll_of_match _ d _ hm2, nakedIntervalReplaceAll_of_match _ d r hm,
          ih r hrl (fun u hu hur => hno u hu (hur.trans hsuf)), List.append_assoc]
      | none =>
        have hm2 : matchNakedInterval (c :: (t ++ Z)) = none := by
          cases hx : matchNakedInterval (c :: (t ++ Z)) with
          | none => rfl
          | some dr =>
            obtain ⟨d, r⟩ := dr
            obtain ⟨m, hocc, hsm⟩ := occurrence_of_matchNakedInterval _ d r hx
            rw [← List.cons_append] at hsm
            rcases List.append_eq_append_iff.mp hsm with ⟨a, ha1, ha2⟩ | ⟨b, hb1, hb2⟩
            · by_cases hane : a = []
              · subst hane
                rw [List.append_nil] at ha1
                have := matchNakedInterval_of_occurrence m d [] hocc
                rw [List.append_nil, ha1, hm] at this
                exact absurd this (by simp)
              · exact absurd ⟨r, ha2.symm⟩ (hno (c :: t) (by simp) (List.suffix_refl _) m d a hocc
                  ha1 hane)
            · have := matchNakedInterval_of_occurrence m d b hocc
              rw [← hb1, hm] at this
              exact absurd this (by simp)
        rw [List.cons_append, nakedIntervalReplaceAll_cons_of_no_match _ _ hm2,
          nakedIntervalReplaceAll_cons_of_no_match _ _ hm,
          ih t (by omega) (fun u hu hut => hno u hu (hut.trans (List.suffix_cons _ _))),
          List.cons_append]

theorem quote_not_mem_occurrence_tail (ws1 ws2 d : Text) (h1 : ∀ c ∈ ws1, isSpace c = true)
    (h2 : ∀ c ∈ ws2, isSpace c = true) (hd : ∀ c ∈ d, isDigit c = true) :
    '"' ∉ ws1 ++ ':' :: ws2 ++ d ++ [','] := by
  intro h
  rcases List.mem_append.mp h with h | h
  · rcases List.mem_append.mp h with h | h
    · rcases List.mem_append.mp h with h | h
      · exact absurd (h1 _ h) (by decide)
      · rcases List.mem_cons.mp h with h | h
        · exact absurd h (by decide)
        · exact absurd (h2 _ h) (by decide)
    · exact absurd (hd _ h) (by decide)
  · exact absurd (List.mem_singleton.mp h) (by decide)

/-- The first occurrence of a character determines the text before it. -/
theorem eq_of_append_cons_eq (x : Char) : ∀ (A K B C : Text), x ∉ A → x ∉ K →
    A ++ x :: B = K ++ x :: C → A = K := by
  intro A
  induction A with
  | nil =>
    intro K B C _ hK h
    cases K with
    | nil => rfl
    | cons k K =>
      simp only [List.nil_append, List.cons_append, List.cons.injEq] at h
      exact absurd (by simp [h.1]) hK
  | cons a A ih =>
    intro K B C hA hK h
    cases K with
    | nil =>
      simp only [List.nil_append, List.cons_append, List.cons.injEq] at h
      exact absurd (by simp [h.1]) hA
    | cons k K =>
      simp only [List.cons_append, List.cons.injEq] at h
      rw [h.1, ih K B C (fun e => hA (by simp [e])) (fun e => hK (by simp [e])) h.2]

/-- No occurrence of the pattern starts before a colon and whitespace and ends after the
double quote that follows them. -/
theorem no_straddle_into_value (P ws Z : Text) (hws : ∀ c ∈ ws, isSpace c = true) :
    ∀ u, u ≠ [] → u <:+ P ++ ':' :: ws → ∀ m d a, IsOccurrence m d → m = u ++ a → a ≠ [] →
      ¬ a <+: '"' :: Z := by
  intro u hu hsuf m d a hocc hm ha hpre
  obtain ⟨ws1, ws2, h1, h2, _, hdig, rfl⟩ := hocc
  have hT := quote_not_mem_occurrence_tail ws1 ws2 d h1 h2 hdig
  obtain ⟨a', rfl⟩ : ∃ a', a = '"' :: a' := by
    cases a with
    | nil => exact absurd rfl ha
    | cons x a' =>
      obtain ⟨w, hw⟩ := hpre
      simp only [List.cons_append, List.cons.injEq] at hw
      exact ⟨a', by rw [hw.1]⟩
  obtain ⟨x, u', rfl⟩ : ∃ x u', u = x :: u' := by
    cases u with
    | nil => exact absurd rfl hu
    | cons x u' => exact ⟨x, u', rfl⟩
  have hm' : "interval".toList ++ '"' :: (ws1 ++ ':' :: ws2 ++ d ++ [','])
      = u' ++ '"' :: a' := by
    have e : intervalKey = '"' :: ("interval".toList ++ ['"']) := rfl
    rw [e] at hm
    simp only [List.cons_append, List.append_assoc, List.cons.injEq, List.singleton_append,
      List.nil_append] at hm
    simpa [List.append_assoc] using hm.2
  have hu' : "interval".toList = u' :=
    ((List.append_cons_inj_of_not_mem (by decide) hT).mp hm').1
  subst hu'
  obtain ⟨w, hw⟩ := hsuf
  have hrev := congrArg List.reverse hw
  simp only [List.reverse_append, List.reverse_cons, List.append_assoc] at hrev
  cases hr : ws.reverse with
  | nil =>
    rw [hr] at hrev
    simp [String.toList] at hrev
  | cons s rs =>
    have hs : isSpace s = true := hws s (by
      have : s ∈ ws.reverse := by rw [hr]; simp
      exact List.mem_reverse.mp this)
    rw [hr] at hrev
    simp [String.toList] at hrev
    rw [← hrev.1] at hs
    exact absurd hs (by decide)

/-- The pattern does not match at the opening quote of a string that holds a backslash
before its closing quote. -/
theorem matchNakedInterval_at_value (body Q : Text) (hq : '"' ∉ body) (hb : '\\' ∈ body) :
    matchNakedInterval ('"' :: (body ++ '"' :: Q)) = none := by
  cases hx : matchNakedInterval ('"' :: (body ++ '"' :: Q)) with
  | none => rfl
  | some dr =>
    obtain ⟨d, r⟩ := dr
    obtain ⟨m, hocc, hsm⟩ := occurrence_of_matchNakedInterval _ d r hx
    obtain ⟨ws1, ws2, _, _, _, _, rfl⟩ := hocc
    have e : intervalKey = '"' :: ("interval".toList ++ ['"']) := rfl
    rw [e] at hsm
    simp only [List.cons_append, List.append_assoc, List.cons.injEq, List.singleton_append,
      List.nil_append, true_and] at hsm
    have hbody : body = "interval".toList :=
      eq_of_append_cons_eq '"' body _ _ _ hq (by decide) hsm
    rw [hbody] at hb
    exact absurd hb (by decide)

/-! ## Decoding a string literal without escapes -/

theorem decodeLoop_plain_cons (n : Nat) (c : Char) (t : Text) (h1 : c ≠ '\\') (h2 : c ≠ '"')
    (h3 : 0x20 ≤ c.toNat) :
    decodeLoop (n + 1) (c :: t) = consDecoded c (decodeLoop n t) := by
  simp only [decodeLoop, h1, h2, if_false, Nat.not_lt.mpr h3]

theorem decodeLoop_plain : ∀ (s : Text), plainText s → ∀ (n : Nat) (X : Text),
    decodeLoop (n + s.length) (s ++ X)
      = (decodeLoop n X).map (fun r => (s ++ r.1, r.2)) := by
  intro s
  induction s with
  | nil =>
    intro _ n X
    cases h : decodeLoop n X <;> simp [h]
  | cons c t ih =>
    intro hp n X
    obtain ⟨h1, h2, h3⟩ := hp c (by simp)
    have ht : plainText t := fun x hx => hp x (by simp [hx])
    rw [List.length_cons, ← Nat.add_assoc, List.cons_append, decodeLoop_plain_cons _ c _ h1 h2 h3,
      ih ht n X]
    cases h : decodeLoop n X with
    | none => rfl
    | some r => rfl

/-- A string literal made of plain text around one escaped backslash followed by `n`
decodes to the plain text around the two characters backslash, `n`. -/
theorem decodeString_escaped_backslash_n (s1 s2 tail : Text) (h1 : plainText s1)
    (h2 : plainText s2) :
    decodeString (s1 ++ '\\' :: '\\' :: 'n' :: s2 ++ '"' :: tail)
      = some (s1 ++ '\\' :: 'n' :: s2, tail) := by
  unfold decodeString
  have hlen : (s1 ++ '\\' :: '\\' :: 'n' :: s2 ++ '"' :: tail).length + 1
      = (((tail.length + 2) + 1 + s2.length) + 1 + 1) + s1.length := by
    simp only [List.length_append, List.length_cons]
    omega
  rw [hlen, List.append_assoc, decodeLoop_plain s1 h1]
  have e1 : decodeLoop ((tail.length + 2) + 1 + s2.length + 1 + 1)
      ('\\' :: '\\' :: 'n' :: s2 ++ '"' :: tail)
      = consDecoded '\\' (decodeLoop ((tail.length + 2) + 1 + s2.length + 1)
          ('n' :: (s2 ++ '"' :: tail))) := by
    simp [decodeLoop, simpleEscape]
  have e2 : decodeLoop ((tail.length + 2) + 1 + s2.length + 1) ('n' :: (s2 ++ '"' :: tail))
      = consDecoded 'n' (decodeLoop ((tail.length + 2) + 1 + s2.length) (s2 ++ '"' :: tail)) :=
    decodeLoop_plain_cons _ 'n' _ (by decide) (by decide) (by decide)
  have e3 : decodeLoop ((tail.length + 2) + 1) ('"' :: tail) = some ([], tail) := by
    simp [decodeLoop]
  rw [e1, e2, decodeLoop_plain s2 h2, e3]
  simp [consDecoded]

/-! ## The newline repair around a string literal -/

theorem not_mem_of_isSpace (ws : Text) (hws : ∀ c ∈ ws, isSpace c = true) : '\\' ∉ ws :=
  fun h => absurd (hws _ h) (by decide)

theorem not_mem_of_plainText (s : Text) (h : plainText s) : '\\' ∉ s ∧ '"' ∉ s :=
  ⟨fun hx => (h _ hx).1 rfl, fun hx => (h _ hx).2.1 rfl⟩

/-- The newline repair of a document around a string literal that holds one continuation
between plain texts. -/
theorem newlineRepair_around_literal (X s1 s2 post : Text) (h1 : plainText s1)
    (h2 : plainText s2) :
    newlineRepair (X ++ '"' :: (s1 ++ '\\' :: '\n' :: s2 ++ '"' :: post))
      = newlineRepair X ++ '"' :: (s1 ++ '\\' :: '\\' :: 'n' :: s2 ++ '"' :: newlineRepair post) := by
  unfold newlineRepair
  have hold : "\\\n".toList ≠ [] := by decide
  rw [ReplaceAll_append_cons _ _ hold '"' (by decide)]
  congr 2
  have e : s1 ++ '\\' :: '\n' :: s2 ++ '"' :: post
      = s1 ++ ('\\' :: "\n".toList) ++ (s2 ++ '"' :: post) := by
    simp [String.toList]
  rw [e, show "\\\n".toList = '\\' :: "\n".toList from rfl,
    ReplaceAll_append_old_append '\\' _ _ (by decide),
    ReplaceAll_of_head_not_mem '\\' _ _ s1 (not_mem_of_plainText s1 h1).1,
    ReplaceAll_append_cons _ _ (by simp) '"' (by decide),
    ReplaceAll_of_head_not_mem '\\' _ _ s2 (not_mem_of_plainText s2 h2).1]
  simp [String.toList]

theorem newlineRepair_colon_space (pre ws : Text) (hws : ∀ c ∈ ws, isSpace c = true) :
    newlineRepair (pre ++ ':' :: ws) = newlineRepair pre ++ ':' :: ws := by
  unfold newlineRepair
  rw [ReplaceAll_append_cons _ _ (by decide) ':' (by decide),
    show "\\\n".toList = '\\' :: "\n".toList from rfl,
    ReplaceAll_of_head_not_mem '\\' _ _ ws (not_mem_of_isSpace ws hws)]

/-- The stages a continuation goes through: the text repairs leave the repaired text
before the value and then the literal with the body `s1`, backslash, backslash, `n`, `s2`;
that literal decodes to `s1`, backslash, `n`, `s2`; and the body of the final loop turns
that text into `s1`, newline, `s2`. -/
theorem continuation_stages (pre ws s1 s2 post : Text)
    (hws : ∀ c ∈ ws, isSpace c = true) (h1 : plainText s1) (h2 : plainText s2) :
    ∃ tail : Text,
      textRepair (pre ++ ':' :: ws ++ '"' :: (s1 ++ '\\' :: '\n' :: s2 ++ '"' :: post))
        = textRepair (pre ++ ':' :: ws) ++ '"' :: (s1 ++ '\\' :: '\\' :: 'n' :: s2 ++ '"' :: tail) ∧
      decodeString (s1 ++ '\\' :: '\\' :: 'n' :: s2 ++ '"' :: tail)
        = some (s1 ++ '\\' :: 'n' :: s2, tail) ∧
      ∀ (platform : Text) (v : Metadata), v.Query = s1 ++ '\\' :: 'n' :: s2 →
        (repairEntry platform v).Query = s1 ++ '\n' :: s2 := by
  obtain ⟨tail, htail⟩ := nakedIntervalReplaceAll_quote (newlineRepair post)
  have hq : '"' ∉ s1 ++ '\\' :: '\\' :: 'n' :: s2 := by
    intro h
    rcases List.mem_append.mp h with h | h
    · exact (not_mem_of_plainText s1 h1).2 h
    · simp only [List.mem_cons] at h
      rcases h with h | h | h | h
      · exact absurd h (by decide)
      · exact absurd h (by decide)
      · exact absurd h (by decide)
      · exact (not_mem_of_plainText s2 h2).2 h
  refine ⟨tail, ?_, decodeString_escaped_backslash_n s1 s2 tail h1 h2, ?_⟩
  · unfold textRepair
    rw [newlineRepair_around_literal _ s1 s2 post h1 h2, newlineRepair_colon_space pre ws hws,
      nakedIntervalReplaceAll_append _ _ _ (le_refl _)
        (no_straddle_into_value (newlineRepair pre) ws _ hws),
      nakedIntervalReplaceAll_cons_of_no_match _ _
        (matchNakedInterval_at_value _ _ hq (by simp)),
      nakedIntervalReplaceAll_copy_run _ _ (fun c hc e => hq (e ▸ hc)), htail]
  · intro platform v hv
    rw [repairEntry_Query, hv,
      show s1 ++ '\\' :: 'n' :: s2 = s1 ++ ('\\' :: "n".toList) ++ s2 by simp [String.toList],
      show "\\n".toList = '\\' :: "n".toList from rfl,
      ReplaceAll_append_old_append '\\' _ _ (by decide),
      ReplaceAll_of_head_not_mem '\\' _ _ s1 (not_mem_of_plainText s1 h1).1,
      ReplaceAll_of_head_not_mem '\\' _ _ s2 (not_mem_of_plainText s2 h2).1]
    simp [String.toList]

/-! ## `LoadPack`: the pass after decoding -/

/-- C1: after a successful read and decode, `LoadPack` returns a pack as soon as no entry of
`queries` is nil, and in every pack it returns each entry of `queries` keeps its name and
position and has the pack's platform if that is non-empty and the entry's own was empty,
and its own original platform otherwise. -/
theorem LoadPack_platform_default (readFile : Text → Except Text Text)
    (unmarshal : Text → Except Text Pack) (path bs : Text) (pack : Pack)
    (hread : readFile path = .ok bs) (hdec : unmarshal (textRepair bs) = .ok pack) :
    ((∀ e ∈ pack.Queries, e.2 ≠ none) → ∃ p, LoadPack readFile unmarshal path = .ok p) ∧
    ∀ p, LoadPack readFile unmarshal path = .ok p →
      p.Queries.length = pack.Queries.length ∧
      ∀ (i : Nat) (name : Text) (v : Metadata), pack.Queries[i]? = some (name, some v) →
        ∃ v', p.Queries[i]? = some (name, some v') ∧
          v'.Platform =
            if pack.Platform ≠ [] ∧ v.Platform = [] then pack.Platform else v.Platform := by
  constructor
  · intro hall
    exact ⟨_, LoadPack_eq_ok readFile unmarshal path bs pack hread hdec hall⟩
  · intro p hp
    simp only [LoadPack, hread, hdec] at hp
    cases hfin : finalRepairs pack.Platform pack.Queries with
    | none => simp [hfin] at hp
    | some qs =>
      simp only [hfin, Outcome.ok.injEq] at hp
      obtain ⟨_, hqs⟩ := (finalRepairs_eq_some _ _ _).mp hfin
      subst hp
      subst hqs
      refine ⟨by simp, ?_⟩
      intro i name v hi
      refine ⟨repairEntry pack.Platform v, by simp [List.getElem?_map, hi], ?_⟩
      unfold repairEntry
      by_cases hc : pack.Platform ≠ [] ∧ v.Platform = []
      · simp only [hc, ne_eq, not_false_eq_true, and_self, if_true]
      · simp only [hc, if_false]

theorem LoadPack_platform_default_witness :
    LoadPack (readsAs []) (decodesTo examplePack) [] =
      .ok { examplePack with
            Queries := [("a".toList, some ⟨"select 1 \nfrom t".toList, "darwin".toList, "60".toList⟩),
                        ("b".toList, some ⟨"select 2".toList, "linux".toList, "3600".toList⟩)] } ∧
    (((∀ e ∈ examplePack.Queries, e.2 ≠ none) →
        ∃ p, LoadPack (readsAs []) (decodesTo examplePack) [] = .ok p) ∧
      ∀ p, LoadPack (readsAs []) (decodesTo examplePack) [] = .ok p →
        p.Queries.length = examplePack.Queries.length ∧
        ∀ (i : Nat) (name : Text) (v : Metadata),
          examplePack.Queries[i]? = some (name, some v) →
          ∃ v', p.Queries[i]? = some (name, some v') ∧
            v'.Platform =
              if examplePack.Platform ≠ [] ∧ v.Platform = [] then examplePack.Platform
              else v.Platform) :=
  ⟨by decide, LoadPack_platform_default (readsAs []) (decodesTo examplePack) [] [] examplePack
    rfl rfl⟩

/-- C5: in every pack `LoadPack` returns, no entry of `queries` is nil and no query text
of `queries` contains the two characters backslash, `n`: the decoded text was a sequence of
segments free of that pair and separated by it, and the returned text is the same
segments, in order, separated by single newline characters. -/
theorem LoadPack_query_text (readFile : Text → Except Text Text)
    (unmarshal : Text → Except Text Pack) (path : Text) (p : Pack)
    (h : LoadPack readFile unmarshal path = .ok p) :
    ∃ bs pack, readFile path = .ok bs ∧ unmarshal (textRepair bs) = .ok pack ∧
      p.Queries.length = pack.Queries.length ∧
      ∀ (i : Nat) (e : Text × Option Metadata), p.Queries[i]? = some e →
        ∃ v v0 segs, e.2 = some v ∧ pack.Queries[i]? = some (e.1, some v0) ∧
          ¬ "\\n".toList <:+: v.Query ∧
          v0.Query = joinWith "\\n".toList segs ∧
          v.Query = joinWith "\n".toList segs ∧
          ∀ g ∈ segs, ¬ "\\n".toList <:+: g := by
  unfold LoadPack at h
  cases hread : readFile path with
  | error err => simp [hread] at h
  | ok bs =>
    simp only [hread] at h
    cases hdec : unmarshal (textRepair bs) with
    | error err => simp [hdec] at h
    | ok pack =>
      simp only [hdec] at h
      cases hfin : finalRepairs pack.Platform pack.Queries with
      | none => simp [hfin] at h
      | some qs =>
        simp only [hfin, Outcome.ok.injEq] at h
        obtain ⟨hall, hqs⟩ := (finalRepairs_eq_some _ _ _).mp hfin
        subst h
        subst hqs
        refine ⟨bs, pack, rfl, hdec, by simp, ?_⟩
        intro i e hi
        simp only [List.getElem?_map, Option.map_eq_some'] at hi
        obtain ⟨⟨name, ov⟩, hget, he⟩ := hi
        subst he
        cases ov with
        | none => exact absurd rfl (hall _ (List.getElem?_mem hget))
        | some v0 =>
          obtain ⟨segs, _, hs1, hs2, hs3⟩ :=
            ReplaceAll_segments "\\n".toList "\n".toList (by decide) _ v0.Query (le_refl _)
          refine ⟨repairEntry pack.Platform v0, v0, segs, rfl, hget, ?_, hs1, ?_, hs3⟩
          · exact not_infix_ReplaceAll_self _ '\n' [] (by decide) (by decide) (by decide) _
          · rw [repairEntry_Query]; exact hs2

theorem LoadPack_query_text_witness :
    LoadPack (readsAs []) (decodesTo examplePack) [] =
      .ok { examplePack with
            Queries := [("a".toList, some ⟨"select 1 \nfrom t".toList, "darwin".toList, "60".toList⟩),
                        ("b".toList, some ⟨"select 2".toList, "linux".toList, "3600".toList⟩)] } ∧
    ∃ bs pack, readsAs [] [] = .ok bs ∧ decodesTo examplePack (textRepair bs) = .ok pack ∧
      ({ examplePack with
            Queries := [("a".toList, some ⟨"select 1 \nfrom t".toList, "darwin".toList, "60".toList⟩),
                        ("b".toList, some ⟨"select 2".toList, "linux".toList, "3600".toList⟩)] }
          : Pack).Queries.length = pack.Queries.length :=
  ⟨by decide,
    (LoadPack_query_text (readsAs []) (decodesTo examplePack) [] _ (by decide)).imp
      fun _ hbs => hbs.imp fun _ hp => ⟨hp.1, hp.2.1, hp.2.2.1⟩⟩

/-- C6: the final loop of `LoadPack` ranges over `queries` only: after a successful read
and decode with no nil entry in `queries`, the call returns a pack whose `discovery` map is
exactly the decoded one, so a backslash, `n` pair in a discovery query is still there. -/
theorem LoadPack_discovery_untouched (readFile : Text → Except Text Text)
    (unmarshal : Text → Except Text Pack) (path bs : Text) (pack : Pack)
    (hread : readFile path = .ok bs) (hdec : unmarshal (textRepair bs) = .ok pack)
    (hall : ∀ e ∈ pack.Queries, e.2 ≠ none) :
    ∃ p, LoadPack readFile unmarshal path = .ok p ∧ p.Discovery = pack.Discovery := by
  exact ⟨_, LoadPack_eq_ok readFile unmarshal path bs pack hread hdec hall, rfl⟩

theorem LoadPack_discovery_untouched_witness :
    (∃ p, LoadPack (readsAs []) (decodesTo examplePack) [] = .ok p ∧
      p.Discovery = examplePack.Discovery) ∧
    examplePack.Discovery = [("d".toList, some ⟨"select 3 \\nfrom u".toList, [], []⟩)] ∧
    "\\n".toList <:+: "select 3 \\nfrom u".toList :=
  ⟨LoadPack_discovery_untouched (readsAs []) (decodesTo examplePack) [] [] examplePack rfl rfl
    (by decide), rfl, ⟨"select 3 ".toList, "from u".toList, rfl⟩⟩

/-- C9: when the read and the decode succeed and the decoded `queries` map holds a nil
entry, `LoadPack` returns neither a pack nor an error: the final loop dereferences the nil
pointer and the call panics. -/
theorem LoadPack_nil_entry_panics (readFile : Text → Except Text Text)
    (unmarshal : Text → Except Text Pack) (path bs : Text) (pack : Pack) (name : Text)
    (hread : readFile path = .ok bs) (hdec : unmarshal (textRepair bs) = .ok pack)
    (hnil : (name, none) ∈ pack.Queries) :
    LoadPack readFile unmarshal path = .panic := by
  simp only [LoadPack, hread, hdec, finalRepairs_eq_none pack.Platform pack.Queries name hnil]

theorem LoadPack_nil_entry_panics_witness :
    LoadPack (readsAs "\x7b\"queries\": \x7b\"q\": null\x7d\x7d".toList) (decodesTo nullEntryPack)
      "pack.conf".toList = .panic :=
  LoadPack_nil_entry_panics _ _ _ "\x7b\"queries\": \x7b\"q\": null\x7d\x7d".toList nullEntryPack "q".toList
    rfl rfl (by decide)

/-! ## `RenderPack` -/

/-- C7: the bytes `RenderPack` returns contain neither the six characters `>` nor
`<`, and wherever the encoder wrote the encoding of a text with a `>` or `<` in it,
the returned bytes have that character itself at that place, between the renderings of
what stands before and after it. -/
theorem RenderPack_angle_brackets (marshalIndent : Pack → Except Text Text) (qs : QueryMap)
    (out : Text) (h : RenderPack marshalIndent qs = .ok out) :
    ¬ "\\u003e".toList <:+: out ∧ ¬ "\\u003c".toList <:+: out ∧
    ∀ (X a b Y : Text) (c : Char), c = '>' ∨ c = '<' →
      marshalIndent { Queries := qs } = .ok (X ++ encodeBody (a ++ c :: b) ++ Y) →
      out = massage (X ++ encodeBody a) ++ c :: massage (encodeBody b ++ Y) := by
  unfold RenderPack at h
  cases hm : marshalIndent { Queries := qs } with
  | error err => simp [hm] at h
  | ok enc =>
    simp only [hm, Except.ok.injEq] at h
    subst h
    refine ⟨massage_no_escaped_gt enc, massage_no_escaped_lt enc, ?_⟩
    intro X a b Y c hc henc
    simp only [Except.ok.injEq] at henc
    subst henc
    rcases hc with rfl | rfl
    · rw [encodeBody_append, encodeBody_cons,
        show encodeChar '>' = "\\u003e".toList from by decide,
        show X ++ (encodeBody a ++ ("\\u003e".toList ++ encodeBody b)) ++ Y
          = (X ++ encodeBody a) ++ "\\u003e".toList ++ (encodeBody b ++ Y) by
          simp only [List.append_assoc],
        massage_gt]
    · rw [encodeBody_append, encodeBody_cons,
        show encodeChar '<' = "\\u003c".toList from by decide,
        show X ++ (encodeBody a ++ ("\\u003c".toList ++ encodeBody b)) ++ Y
          = (X ++ encodeBody a) ++ "\\u003c".toList ++ (encodeBody b ++ Y) by
          simp only [List.append_assoc],
        massage_lt]

theorem RenderPack_angle_brackets_witness :
    RenderPack exampleMarshal [("q".toList, some ⟨"x > 5 AND y < 10".toList, [], []⟩)]
      = .ok "\x7b\"q\":\"x > 5 AND y < 10\"\x7d".toList ∧
    ¬ "\\u003e".toList <:+: "\x7b\"q\":\"x > 5 AND y < 10\"\x7d".toList ∧
    ¬ "\\u003c".toList <:+: "\x7b\"q\":\"x > 5 AND y < 10\"\x7d".toList :=
  ⟨rfl,
    (RenderPack_angle_brackets exampleMarshal
      [("q".toList, some ⟨"x > 5 AND y < 10".toList, [], []⟩)] _ (rfl)).1,
    (RenderPack_angle_brackets exampleMarshal
      [("q".toList, some ⟨"x > 5 AND y < 10".toList, [], []⟩)] _ (rfl)).2.1⟩

/-- C8: a query text with a backslash followed by `n` does not survive rendering: the
encoder writes the backslash as two backslashes, the last replacement of `RenderPack`
takes the second one and the `n` for an escaped newline, and the text repairs of
`LoadPack` leave a backslash followed by a space, which the decoder rejects.  A backslash
followed by `u003e` is broken in the same way by the first replacement. -/
theorem RenderPack_backslash_n_not_loadable :
    RenderPack exampleMarshal [("q".toList, some ⟨"a\\nb".toList, [], []⟩)]
      = .ok "\x7b\"q\":\"a\\ \\\n    b\"\x7d".toList ∧
    textRepair "\x7b\"q\":\"a\\ \\\n    b\"\x7d".toList = "\x7b\"q\":\"a\\ \\\\n    b\"\x7d".toList ∧
    decodeString "a\\ \\\\n    b\"\x7d".toList = none ∧
    RenderPack exampleMarshal [("q".toList, some ⟨"a\\u003eb".toList, [], []⟩)]
      = .ok "\x7b\"q\":\"a\\>b\"\x7d".toList ∧
    textRepair "\x7b\"q\":\"a\\>b\"\x7d".toList = "\x7b\"q\":\"a\\>b\"\x7d".toList ∧
    decodeString "a\\>b\"\x7d".toList = none := by
  refine ⟨rfl, by decide, by decide, rfl, by decide, by decide⟩

/-! ## The interval repair -/

/-- C3: for every document, the interval repair of `LoadPack` yields exactly the text the
specification describes: every occurrence of `"interval"`, optional whitespace, `:`,
optional whitespace, a non-empty digit run `d` and a comma is rewritten to
`"interval": "d",`, and every character outside the occurrences is kept.  In particular
`"interval": 3600,` becomes `"interval": "3600",`, whose value decodes as the string
`3600`. -/
theorem nakedInterval_rewrites_occurrences :
    (∀ doc out : Text, IntervalRewritten doc out ↔ out = nakedIntervalReplaceAll doc) ∧
    nakedIntervalReplaceAll "\"interval\": 3600,".toList = "\"interval\": \"3600\",".toList ∧
    textRepair
        "\x7b\"queries\": \x7b\"q\": \x7b\"interval\": 3600, \"query\": \"select 1\"\x7d\x7d\x7d".toList
      = "\x7b\"queries\": \x7b\"q\": \x7b\"interval\": \"3600\", \"query\": \"select 1\"\x7d\x7d\x7d".toList ∧
    decodeString "3600\",".toList = some ("3600".toList, ",".toList) := by
  refine ⟨?_, by decide, by decide, by decide⟩
  intro doc out
  constructor
  · intro h
    exact nakedIntervalLoop_unique doc out h _ (le_refl _)
  · intro h
    subst h
    exact nakedIntervalLoop_rewritten _ doc (le_refl _)

/-- C4: a bare integer interval that is the last member of its object is not followed by a
comma, so the pattern does not match it and both text repairs leave the document as it
is: the literal stays unquoted. -/
theorem nakedInterval_last_member_untouched :
    matchNakedInterval "\"interval\": 3600\x7d".toList = none ∧
    textRepair
        "\x7b\"queries\": \x7b\"q\": \x7b\"query\": \"select 1\", \"interval\": 3600\x7d\x7d\x7d".toList
      = "\x7b\"queries\": \x7b\"q\": \x7b\"query\": \"select 1\", \"interval\": 3600\x7d\x7d\x7d".toList ∧
    textRepair
        "\x7b\"queries\": \x7b\"q\": \x7b\"query\": \"select 1\", \"interval\": 3600\n\x7d\x7d\x7d".toList
      = "\x7b\"queries\": \x7b\"q\": \x7b\"query\": \"select 1\", \"interval\": 3600\n\x7d\x7d\x7d".toList := by
  refine ⟨by decide, by decide, by decide⟩

/-! ## `SaveToDirectory` -/

/-- C10 as stated fails: the two distinct names `a` and `./a` are joined to the same path
`d/a.sql`, so a call that returns no error has written one path, not two, and that path
holds the output for `./a`, not the output for `a`; hence distinct names alone do not give
one file per query. -/
theorem SaveToDirectory_names_collide :
    ("a".toList ≠ "./a".toList) ∧
    targetPath "d".toList "a".toList = "d/a.sql".toList ∧
    targetPath "d".toList "./a".toList = "d/a.sql".toList ∧
    exampleRender (some ⟨"select 1".toList, [], []⟩) = .ok "select 1".toList ∧
    (∃ fs' : FS,
      SaveToDirectory exampleRender (fun _ _ => none) "d".toList
        [("a".toList, some ⟨"select 1".toList, [], []⟩),
         ("./a".toList, some ⟨"select 2".toList, [], []⟩)] emptyFS = .ok fs' ∧
      fs' "d/a.sql".toList = some "select 2".toList ∧
      fs' "d/./a.sql".toList = none ∧
      ∀ p, p ≠ "d/a.sql".toList → fs' p = none) ∧
    ¬ ∀ (Render : Option Metadata → Except Text Text) (writeErr : FS → Text → Option Text)
        (destination : Text) (mm : QueryMap) (fs fs' : FS),
        (mm.map Prod.fst).Nodup →
        SaveToDirectory Render writeErr destination mm fs = .ok fs' →
        (mm.map (fun e => targetPath destination e.1)).Nodup ∧
        ∀ e ∈ mm, ∃ s, Render e.2 = .ok s ∧ fs' (targetPath destination e.1) = some s := by
  refine ⟨by decide, by decide, by decide, rfl,
    ⟨writeFile (writeFile emptyFS "d/a.sql".toList "select 1".toList) "d/a.sql".toList
      "select 2".toList, rfl, by decide, by decide, ?_⟩, ?_⟩
  · intro p hp
    unfold writeFile emptyFS
    rw [if_neg hp, if_neg hp]
  · intro h
    have := (h exampleRender (fun _ _ => none) "d".toList
      [("a".toList, some ⟨"select 1".toList, [], []⟩),
       ("./a".toList, some ⟨"select 2".toList, [], []⟩)] emptyFS
      (writeFile (writeFile emptyFS "d/a.sql".toList "select 1".toList) "d/a.sql".toList
        "select 2".toList) (by decide) rfl).1
    exact absurd this (by decide)

/-- C10, amended: whenever `SaveToDirectory` returns no error for queries whose names are
pairwise distinct and contain no path separator, the target paths are pairwise distinct,
one per query, each is `filepath.Join(destination, name + ".sql")`, which is the directory
part `dirPrefix destination` followed by `<name>.sql`, and holds exactly the output of
`Render` for that name's Metadata, and every other path of the file system is unchanged. -/
theorem SaveToDirectory_files (Render : Option Metadata → Except Text Text)
    (writeErr : FS → Text → Option Text) (destination : Text) (mm : QueryMap) (fs fs' : FS)
    (hnames : (mm.map Prod.fst).Nodup) (hslash : ∀ e ∈ mm, '/' ∉ e.1)
    (hok : SaveToDirectory Render writeErr destination mm fs = .ok fs') :
    (mm.map (fun e => targetPath destination e.1)).Nodup ∧
    (mm.map (fun e => targetPath destination e.1)).length = mm.length ∧
    (∀ e ∈ mm, targetPath destination e.1 = dirPrefix destination ++ e.1 ++ ".sql".toList ∧
      ∃ s, Render e.2 = .ok s ∧ fs' (targetPath destination e.1) = some s) ∧
    ∀ p, p ∉ mm.map (fun e => targetPath destination e.1) → fs' p = fs p := by
  have hnd : (mm.map (fun e => targetPath destination e.1)).Nodup := by
    have h2 : ((mm.map Prod.fst).map (targetPath destination)).Nodup := by
      apply List.Nodup.map_on _ hnames
      intro x hx y hy hxy
      obtain ⟨ex, hex, rfl⟩ := List.mem_map.mp hx
      obtain ⟨ey, hey, rfl⟩ := List.mem_map.mp hy
      exact targetPath_injective destination _ _ (hslash ex hex) (hslash ey hey) hxy
    simpa [List.map_map] using h2
  obtain ⟨h1, h2⟩ := SaveToDirectory_ok Render writeErr destination mm fs fs' hnd hok
  exact ⟨hnd, by simp, fun e he => ⟨targetPath_eq destination e.1 (hslash e he), h1 e he⟩, h2⟩

theorem SaveToDirectory_files_witness :
    targetPath "out".toList "foo".toList = "out/foo.sql".toList ∧
    targetPath "out".toList "bar".toList = "out/bar.sql".toList ∧
    (writeFile (writeFile emptyFS "out/foo.sql".toList "select 1".toList)
        "out/bar.sql".toList "select 2".toList) "out/foo.sql".toList = some "select 1".toList ∧
    ∀ p, p ∉ List.map (fun e => targetPath "out".toList e.1)
          [("foo".toList, some (⟨"select 1".toList, [], []⟩ : Metadata)),
           ("bar".toList, some ⟨"select 2".toList, [], []⟩)] →
      (writeFile (writeFile emptyFS "out/foo.sql".toList "select 1".toList)
        "out/bar.sql".toList "select 2".toList) p = emptyFS p :=
  ⟨by decide, by decide, by decide,
    (SaveToDirectory_files exampleRender (fun _ _ => none) "out".toList
      [("foo".toList, some ⟨"select 1".toList, [], []⟩),
       ("bar".toList, some ⟨"select 2".toList, [], []⟩)] emptyFS
      (writeFile (writeFile emptyFS "out/foo.sql".toList "select 1".toList)
        "out/bar.sql".toList "select 2".toList)
      (by decide) (by decide) rfl).2.2.2⟩

/-! ## The newline repair, end to end -/

/-- C2: let the file hold a document in which a string value (after its colon and optional
whitespace) has the body `s1`, backslash, raw newline, `s2`, with `s1` and `s2` free of
backslashes, double quotes and control characters, and let the decoder read the query text
of an entry of `queries` from that literal.  Then the text repairs of `LoadPack` leave
the repaired text before the value followed by the literal with the body `s1`, backslash,
backslash, `n`, `s2`; the decoded query text is `s1`, backslash, `n`, `s2`; `LoadPack`
returns a pack as soon as no entry of `queries` is nil; and in every pack it returns, that
entry has the query text `s1`, newline, `s2`. -/
theorem LoadPack_continuation_newline (readFile : Text → Except Text Text)
    (unmarshal : Text → Except Text Pack) (path pre ws s1 s2 post : Text) (pack : Pack)
    (i : Nat) (name : Text) (v : Metadata)
    (hws : ∀ c ∈ ws, isSpace c = true) (h1 : plainText s1) (h2 : plainText s2)
    (hread : readFile path
      = .ok (pre ++ ':' :: ws ++ '"' :: (s1 ++ '\\' :: '\n' :: s2 ++ '"' :: post)))
    (hdec : unmarshal
        (textRepair (pre ++ ':' :: ws ++ '"' :: (s1 ++ '\\' :: '\n' :: s2 ++ '"' :: post)))
      = .ok pack)
    (hentry : pack.Queries[i]? = some (name, some v))
    (hlit : ReadsStringAfter
      (textRepair (pre ++ ':' :: ws ++ '"' :: (s1 ++ '\\' :: '\n' :: s2 ++ '"' :: post)))
      (textRepair (pre ++ ':' :: ws)) v.Query) :
    (∃ tail : Text,
      textRepair (pre ++ ':' :: ws ++ '"' :: (s1 ++ '\\' :: '\n' :: s2 ++ '"' :: post))
        = textRepair (pre ++ ':' :: ws) ++ '"' :: (s1 ++ '\\' :: '\\' :: 'n' :: s2 ++ '"' :: tail) ∧
      decodeString (s1 ++ '\\' :: '\\' :: 'n' :: s2 ++ '"' :: tail)
        = some (s1 ++ '\\' :: 'n' :: s2, tail)) ∧
    v.Query = s1 ++ '\\' :: 'n' :: s2 ∧
    ((∀ e ∈ pack.Queries, e.2 ≠ none) → ∃ p, LoadPack readFile unmarshal path = .ok p) ∧
    ∀ p, LoadPack readFile unmarshal path = .ok p →
      ∃ v', p.Queries[i]? = some (name, some v') ∧ v'.Query = s1 ++ '\n' :: s2 := by
  obtain ⟨tail, hrep, hdecode, hfinal⟩ := continuation_stages pre ws s1 s2 post hws h1 h2
  have hv : v.Query = s1 ++ '\\' :: 'n' :: s2 := by
    obtain ⟨lit, rest, hl1, hl2⟩ := hlit
    rw [hrep] at hl1
    have hl : s1 ++ '\\' :: '\\' :: 'n' :: s2 ++ '"' :: tail = lit :=
      List.cons.inj (List.append_cancel_left hl1) |>.2
    rw [← hl, hdecode] at hl2
    simp only [Option.some.injEq, Prod.mk.injEq] at hl2
    exact hl2.1.symm
  refine ⟨⟨tail, hrep, hdecode⟩, hv, ?_, ?_⟩
  · intro hall
    exact ⟨_, LoadPack_eq_ok readFile unmarshal path _ pack hread hdec hall⟩
  · intro p hp
    simp only [LoadPack, hread, hdec] at hp
    cases hfin : finalRepairs pack.Platform pack.Queries with
    | none => simp [hfin] at hp
    | some qs =>
      simp only [hfin, Outcome.ok.injEq] at hp
      obtain ⟨_, hqs⟩ := (finalRepairs_eq_some _ _ _).mp hfin
      subst hp
      subst hqs
      exact ⟨repairEntry pack.Platform v, by simp [List.getElem?_map, hentry],
        hfinal pack.Platform v hv⟩

theorem LoadPack_continuation_newline_witness :
    LoadPack
        (readsAs "\x7b\"queries\": \x7b\"q\": \x7b\"query\": \"select 1 \\\nfrom t\"\x7d\x7d\x7d".toList)
        (decodesTo continuationPack) "pack.conf".toList
      = .ok { Queries := [("q".toList, some ⟨"select 1 \nfrom t".toList, [], []⟩)] } ∧
    textRepair "\x7b\"queries\": \x7b\"q\": \x7b\"query\": \"select 1 \\\nfrom t\"\x7d\x7d\x7d".toList
      = "\x7b\"queries\": \x7b\"q\": \x7b\"query\": \"select 1 \\\\nfrom t\"\x7d\x7d\x7d".toList ∧
    ∀ p, LoadPack
        (readsAs "\x7b\"queries\": \x7b\"q\": \x7b\"query\": \"select 1 \\\nfrom t\"\x7d\x7d\x7d".toList)
        (decodesTo continuationPack) "pack.conf".toList = .ok p →
      ∃ v', p.Queries[0]? = some ("q".toList, some v') ∧
        v'.Query = "select 1 ".toList ++ '\n' :: "from t".toList :=
  ⟨by decide, by decide,
    (LoadPack_continuation_newline
      (readsAs "\x7b\"queries\": \x7b\"q\": \x7b\"query\": \"select 1 \\\nfrom t\"\x7d\x7d\x7d".toList)
      (decodesTo continuationPack) "pack.conf".toList
      "\x7b\"queries\": \x7b\"q\": \x7b\"query\"".toList " ".toList
      "select 1 ".toList "from t".toList "\x7d\x7d\x7d".toList continuationPack 0 "q".toList
      ⟨"select 1 \\nfrom t".toList, [], []⟩
      (by decide) (by decide) (by decide) rfl rfl rfl
      ⟨"select 1 \\\\nfrom t\"\x7d\x7d\x7d".toList, "\x7d\x7d\x7d".toList, by decide, by decide⟩).2.2.2⟩

end Osqtool
